import Mathlib

/-!
# Quicksort of `lab-4/main.c`: embedding and verification

The C functions `swap`, `partition`, `sort_s`, `sort_p`,
`startQuickSortSequential` and `startQuickSortParallel` are translated into
Lean functions that pass the machine state explicitly.

* The `int *arr` buffer is a `List Int`; its length `n` is the number of `int`
  cells the caller allocated. Elements are only compared and moved, never
  computed with, so they are plain `Int`s.
* Indices are C `int`s, modelled as `Int` (they can be `-1`, e.g. `low - 1`).
  On a range inside the buffer every index the code computes lies between
  `low - 1` and `high + 1`, hence in `[-1, n]`, so for `n < 2^31` no index
  arithmetic overflows.
* Every array access is bounds-checked by the model: an access outside the
  buffer (undefined behaviour in C) stops the run with `Fault.outOfBounds`.
* Recursion depth is bounded by a fuel argument; running out of it is the
  separate fault `Fault.outOfFuel`.
* The state also carries a log of the events of the run (array reads and
  writes, calls, task submissions), in chronological order.
-/

namespace Quicksort

/-- Observable events of a run, appended to the log in the order they happen. -/
inductive Event where
  | read (k : Int)
  | write (k : Int)
  | partition (low high : Int)
  | sort_s (low high : Int)
  | sort_p (low high : Int)
  | task (low high : Int)
  deriving DecidableEq

/-- Machine state: the contents of the buffer and the log of events so far. -/
structure State where
  arr : List Int
  log : List Event
  deriving DecidableEq

/-- Ways a run of the model stops without a result. -/
inductive Fault where
  | outOfBounds (k : Int) (log : List Event)
  | outOfFuel
  deriving DecidableEq

/-- A pending OpenMP task: the closure `sort_s(arr, low, high)`. -/
structure Task where
  low : Int
  high : Int
  deriving DecidableEq

/-- Order in which the runtime executes the two pending tasks. -/
inductive Schedule where
  | submission
  | reversed
  deriving DecidableEq

/-- Appends one event to the log. -/
def State.emit (s : State) (e : Event) : State :=
  ⟨s.arr, s.log ++ [e]⟩

/-- Value of cell `k` of a buffer (`0` outside the buffer, where the model never reads). -/
def cell (a : List Int) (k : Int) : Int :=
  if k < 0 then 0 else a.getD k.toNat 0

/-- The C expression `arr[k]` read as an rvalue. -/
def load (s : State) (k : Int) : Except Fault (Int × State) :=
  if 0 ≤ k ∧ k < s.arr.length then
    .ok (cell s.arr k, s.emit (.read k))
  else
    .error (.outOfBounds k s.log)

/-- The C assignment `arr[k] = v`. -/
def store (s : State) (k : Int) (v : Int) : Except Fault State :=
  if 0 ≤ k ∧ k < s.arr.length then
    .ok ⟨s.arr.set k.toNat v, s.log ++ [.write k]⟩
  else
    .error (.outOfBounds k s.log)

/-- The C function `swap(&arr[a], &arr[b])`: `t = *a; *a = *b; *b = t`. -/
def swap (s : State) (a b : Int) : Except Fault State :=
  match load s a with
  | .error e => .error e
  | .ok (t, s) =>
    match load s b with
    | .error e => .error e
    | .ok (vb, s) =>
      match store s a vb with
      | .error e => .error e
      | .ok s => store s b t

/-- The `for (j = low; j <= high - 1; j++)` loop of `partition`, entered with
the current `i`, `j` and state. Each iteration uses one unit of fuel. -/
def partition_loop : Nat → Int → Int → Int → Int → State → Except Fault (Int × State)
  | 0, _, _, _, _, _ => .error .outOfFuel
  | fuel + 1, pivot, high, i, j, s =>
    if j ≤ high - 1 then
      match load s j with
      | .error e => .error e
      | .ok (v, s) =>
        if v < pivot then
          match swap s (i + 1) j with
          | .error e => .error e
          | .ok s => partition_loop fuel pivot high (i + 1) (j + 1) s
        else
          partition_loop fuel pivot high i (j + 1) s
    else
      .ok (i, s)

/-- The C function `partition(arr, low, high)`: returns the pivot index and the
new state.
The loop gets `high - low + 1` units of fuel, one more than it has iterations. -/
def partition (s : State) (low high : Int) : Except Fault (Int × State) :=
  match load (s.emit (.partition low high)) high with
  | .error e => .error e
  | .ok (pivot, s) =>
    match partition_loop ((high - low).toNat + 1) pivot high (low - 1) low s with
    | .error e => .error e
    | .ok (i, s) =>
      match swap s (i + 1) high with
      | .error e => .error e
      | .ok s => .ok (i + 1, s)

/-- The C function `sort_s(arr, low, high)`. One unit of fuel is used per nested level that
partitions; a call with `low >= high` needs none. -/
def sort_s (fuel : Nat) (s : State) (low high : Int) : Except Fault State :=
  if low < high then
    match fuel with
    | 0 => .error .outOfFuel
    | fuel + 1 =>
      match partition (s.emit (.sort_s low high)) low high with
      | .error e => .error e
      | .ok (pi, s) =>
        match sort_s fuel s low (pi - 1) with
        | .error e => .error e
        | .ok s => sort_s fuel s (pi + 1) high
  else
    .ok (s.emit (.sort_s low high))

/-- The C function `sort_p(arr, low, high)`: partitions, then submits the two `sort_s` calls
as tasks. It returns the state and the tasks it left pending. -/
def sort_p (s : State) (low high : Int) : Except Fault (State × List Task) :=
  if low < high then
    match partition (s.emit (.sort_p low high)) low high with
    | .error e => .error e
    | .ok (pi, s) =>
      .ok ((s.emit (.task low (pi - 1))).emit (.task (pi + 1) high),
           [⟨low, pi - 1⟩, ⟨pi + 1, high⟩])
  else
    .ok (s.emit (.sort_p low high), [])

/-- The C function `startQuickSortSequential(arr, low, high)`. -/
def startQuickSortSequential (fuel : Nat) (s : State) (low high : Int) : Except Fault State :=
  sort_s fuel s low high

/-- The pending tasks in the order the schedule runs them. -/
def Schedule.arrange : Schedule → List Task → List Task
  | .submission, ts => ts
  | .reversed, ts => ts.reverse

/-- Runs pending tasks to completion, one after the other. -/
def runTasks (fuel : Nat) : State → List Task → Except Fault State
  | s, [] => .ok s
  | s, t :: ts =>
    match sort_s fuel s t.low t.high with
    | .error e => .error e
    | .ok s => runTasks fuel s ts

/-- The C function `startQuickSortParallel(arr, low, high)`: one thread of the parallel region
runs `sort_p`; the region ends once every pending task has completed. -/
def startQuickSortParallel (fuel : Nat) (sched : Schedule) (s : State) (low high : Int) :
    Except Fault State :=
  match sort_p s low high with
  | .error e => .error e
  | .ok (s, ts) => runTasks fuel s (sched.arrange ts)

/-- Adjacent cells of `a` at indices `low..high` are non-descending. -/
def SortedOn (a : List Int) (low high : Int) : Prop :=
  ∀ i : Int, low ≤ i → i < high → cell a i ≤ cell a (i + 1)

/-- The cells of `a` at indices `low..high`, in order. -/
def slice (a : List Int) (low high : Int) : List Int :=
  (a.drop low.toNat).take (high + 1 - low).toNat

/-- The buffer after exchanging the cells `x` and `y`. -/
def swapCells (a : List Int) (x y : Int) : List Int :=
  (a.set x.toNat (cell a y)).set y.toNat (cell a x)


/-- States that `b` is `a` with the cells at indices `low..high` rearranged: same length,
same elements, every cell outside `low..high` untouched, and every cell inside
holding a value that was inside before. -/
structure Rearranged (low high : Int) (a b : List Int) : Prop where
  length_eq : b.length = a.length
  perm : b.Perm a
  frame : ∀ k : Int, k < low ∨ high < k → cell b k = cell a k
  inside : ∀ k : Int, low ≤ k → k ≤ high → ∃ k2 : Int, low ≤ k2 ∧ k2 ≤ high ∧ cell b k = cell a k2

/-- Every array read and write among the events `evs` is at an index in
`low..high`. -/
def AccessesIn (low high : Int) (evs : List Event) : Prop :=
  ∀ k : Int, (Event.read k ∈ evs ∨ Event.write k ∈ evs) → low ≤ k ∧ k ≤ high

/-- The reverse-sorted buffer `n, n-1, ..., 1`. -/
def reverseSorted (n : Nat) : List Int :=
  List.map (fun k : Nat => (n : Int) - (k : Int)) (List.range n)

/-- Every event of `evs` is an array read or write at an index in `low..high`. -/
def AccessOnly (low high : Int) (evs : List Event) : Prop :=
  ∀ e ∈ evs, ∃ k : Int, (e = Event.read k ∨ e = Event.write k) ∧ low ≤ k ∧ k ≤ high

/-- What an event of a sequential sort of `low..high` may be: an array access
at an index in `low..high`, a `partition` call on a range `l < h` inside
`low..high`, or a nested `sort_s` call inside `low..high`; never a `sort_p`
call or a task submission. -/
def EventIn (low high : Int) : Event → Prop
  | .read k => low ≤ k ∧ k ≤ high
  | .write k => low ≤ k ∧ k ≤ high
  | .partition l h => low ≤ l ∧ l < h ∧ h ≤ high
  | .sort_s l h => low ≤ l ∧ h ≤ high
  | .sort_p _ _ => False
  | .task _ _ => False

/-- Recognises a task submission. -/
def Event.isTask : Event → Bool
  | .task _ _ => true
  | _ => false

/-- Recognises a call of `partition`. -/
def Event.isPartition : Event → Bool
  | .partition _ _ => true
  | _ => false

/-- Recognises a call of `sort_p`. -/
def Event.isSortP : Event → Bool
  | .sort_p _ _ => true
  | _ => false

end Quicksort

/-!
# The reduction of `lab-2/main.c`

`add_serial` and `add_parallel` read the array through a `const char *` and
never write; the memory behind the pointer is a function from index to value.
The sums are C `long`s and `start`, `stop` are C `int`s: with
`Num_To_Add = 10^9` and `char` elements every value stays far below `2^31`
(indices) and `2^63` (sums), so plain integers model them exactly. The number
of threads, `omp_get_max_threads()` in the source, is a parameter.
-/

namespace Summation

/-- The constant `Num_To_Add` of the source. -/
def Num_To_Add : Int := 1000000000

/-- The loop `for (i = start; i < stop; i++) sum += numbers[i];`, entered with
the current `i` and `sum`. Each test of the loop condition uses one unit of
fuel. -/
def add_loop (numbers : Int → Int) : Nat → Int → Int → Int → Option Int
  | 0, _, _, _ => none
  | fuel + 1, i, stop, sum =>
    if i < stop then add_loop numbers fuel (i + 1) stop (sum + numbers i) else some sum

/-- The C function `add_serial(numbers)`. -/
def add_serial (numbers : Int → Int) : Option Int :=
  add_loop numbers (Num_To_Add.toNat + 1) 0 Num_To_Add 0

/-- Body of the parallel region for thread `thread_num`, with its private `sum`
starting at 0: `start = thread_num * n; stop = (thread_num + 1) * n;` and the
loop over the chunk. -/
def thread_sum (numbers : Int → Int) (n : Int) (thread_num : Int) : Option Int :=
  add_loop numbers (((thread_num + 1) * n - thread_num * n).toNat + 1)
    (thread_num * n) ((thread_num + 1) * n) 0

/-- The `reduction(+: sum)` over the threads `0 .. t-1`: the private sums are
added to the initial `sum = 0`. -/
def reduce_threads (numbers : Int → Int) (n : Int) : Nat → Option Int
  | 0 => some 0
  | t + 1 =>
    match reduce_threads numbers n t, thread_sum numbers n t with
    | some acc, some part => some (acc + part)
    | _, _ => none

/-- The C function `add_parallel(numbers)` run with `numThreads` threads:
`n = Num_To_Add / numThreads`, then the parallel region with its reduction. -/
def add_parallel (numThreads : Nat) (numbers : Int → Int) : Option Int :=
  reduce_threads numbers (Num_To_Add / (numThreads : Int)) numThreads

/-- Sum of the `len` elements `numbers[i], numbers[i+1], ...`. -/
def segSum (numbers : Int → Int) : Int → Nat → Int
  | _, 0 => 0
  | i, len + 1 => numbers i + segSum numbers (i + 1) len

end Summation

namespace Quicksort

/-! ## Buffer lemmas -/

theorem cell_set (a : List Int) (n : Nat) (v : Int) (k : Int) (hn : n < a.length) :
    cell (a.set n v) k = if k = (n : Int) then v else cell a k := by
  unfold cell
  by_cases hk : k < 0
  · have : k ≠ (n : Int) := by omega
    simp [hk, this]
  · simp only [hk, if_false]
    by_cases h : k = (n : Int)
    · subst h
      simp [List.getD_eq_getElem?_getD, hn]
    · have : n ≠ k.toNat := by omega
      simp [h, List.getD_eq_getElem?_getD, List.getElem?_set, this]

theorem length_swapCells (a : List Int) (x y : Int) : (swapCells a x y).length = a.length := by
  simp [swapCells]

theorem cell_swapCells (a : List Int) (x y k : Int) (hx : 0 ≤ x) (hx2 : x < a.length)
    (hy : 0 ≤ y) (hy2 : y < a.length) :
    cell (swapCells a x y) k = if k = y then cell a x else if k = x then cell a y else cell a k := by
  unfold swapCells
  rw [cell_set _ _ _ _ (by simp; omega), cell_set _ _ _ _ (by omega)]
  simp [Int.toNat_of_nonneg hx, Int.toNat_of_nonneg hy]

theorem load_ok (s : State) (k : Int) (h0 : 0 ≤ k) (h1 : k < s.arr.length) :
    load s k = .ok (cell s.arr k, s.emit (.read k)) := by
  simp [load, h0, h1]

theorem store_ok (s : State) (k v : Int) (h0 : 0 ≤ k) (h1 : k < s.arr.length) :
    store s k v = .ok ⟨s.arr.set k.toNat v, s.log ++ [.write k]⟩ := by
  simp [store, h0, h1]

theorem swap_ok (s : State) (x y : Int) (hx : 0 ≤ x) (hx2 : x < s.arr.length)
    (hy : 0 ≤ y) (hy2 : y < s.arr.length) :
    swap s x y = .ok ⟨swapCells s.arr x y,
      s.log ++ [.read x, .read y, .write x, .write y]⟩ := by
  unfold swap
  rw [load_ok s x hx hx2]
  simp only []
  rw [load_ok _ y hy (by simpa [State.emit] using hy2)]
  simp only []
  rw [store_ok _ x _ hx (by simpa [State.emit] using hx2)]
  simp only []
  rw [store_ok _ y _ hy (by simpa [State.emit] using hy2)]
  simp [swapCells, State.emit]

theorem perm_getD_cons_set (t : List Int) (n : Nat) (x : Int) (h : n < t.length) :
    (t.getD n 0 :: t.set n x).Perm (x :: t) := by
  induction t generalizing n with
  | nil => simp at h
  | cons b u ih =>
    cases n with
    | zero => simpa using List.Perm.swap x b u
    | succ m =>
      have hm : m < u.length := by simpa using h
      have h1 : (u.getD m 0 :: b :: u.set m x).Perm (b :: u.getD m 0 :: u.set m x) :=
        List.Perm.swap _ _ _
      have h2 : (b :: u.getD m 0 :: u.set m x).Perm (b :: x :: u) := (ih m hm).cons b
      have h3 : (b :: x :: u).Perm (x :: b :: u) := List.Perm.swap _ _ _
      simpa using h1.trans (h2.trans h3)

theorem perm_set_set (l : List Int) (i j : Nat) (hi : i < l.length) (hj : j < l.length) :
    ((l.set i (l.getD j 0)).set j (l.getD i 0)).Perm l := by
  induction l generalizing i j with
  | nil => simp at hi
  | cons a t ih =>
    cases i with
    | zero =>
      cases j with
      | zero => simp
      | succ j =>
        have hj2 : j < t.length := by simpa using hj
        simpa using perm_getD_cons_set t j a hj2
    | succ i =>
      have hi2 : i < t.length := by simpa using hi
      cases j with
      | zero => simpa using perm_getD_cons_set t i a hi2
      | succ j =>
        have hj2 : j < t.length := by simpa using hj
        simpa using (ih i j hi2 hj2).cons a

theorem perm_swapCells (a : List Int) (x y : Int) (hx : 0 ≤ x) (hx2 : x < a.length)
    (hy : 0 ≤ y) (hy2 : y < a.length) : (swapCells a x y).Perm a := by
  have h := perm_set_set a x.toNat y.toNat (by omega) (by omega)
  have e1 : cell a y = a.getD y.toNat 0 := by simp [cell, not_lt.mpr hy]
  have e2 : cell a x = a.getD x.toNat 0 := by simp [cell, not_lt.mpr hx]
  simpa [swapCells, e1, e2] using h

/-! ## Rearrangements inside a range -/

theorem Rearranged.refl (low high : Int) (a : List Int) : Rearranged low high a a :=
  ⟨rfl, List.Perm.refl a, fun _ _ => rfl, fun k h1 h2 => ⟨k, h1, h2, rfl⟩⟩

theorem Rearranged.trans {low high : Int} {a b c : List Int}
    (h1 : Rearranged low high a b) (h2 : Rearranged low high b c) : Rearranged low high a c := by
  refine ⟨h2.length_eq.trans h1.length_eq, h2.perm.trans h1.perm, ?_, ?_⟩
  · intro k hk
    rw [h2.frame k hk, h1.frame k hk]
  · intro k hk1 hk2
    obtain ⟨k2, a1, a2, e2⟩ := h2.inside k hk1 hk2
    obtain ⟨k3, b1, b2, e3⟩ := h1.inside k2 a1 a2
    exact ⟨k3, b1, b2, e2.trans e3⟩

theorem Rearranged.mono {low high low2 high2 : Int} {a b : List Int}
    (h : Rearranged low high a b) (hl : low2 ≤ low) (hh : high ≤ high2) :
    Rearranged low2 high2 a b := by
  refine ⟨h.length_eq, h.perm, ?_, ?_⟩
  · intro k hk
    exact h.frame k (by omega)
  · intro k hk1 hk2
    by_cases hin : low ≤ k ∧ k ≤ high
    · obtain ⟨k2, a1, a2, e2⟩ := h.inside k hin.1 hin.2
      exact ⟨k2, by omega, by omega, e2⟩
    · exact ⟨k, hk1, hk2, h.frame k (by omega)⟩

theorem rearranged_swapCells (low high : Int) (a : List Int) (x y : Int)
    (hx : 0 ≤ x) (hx2 : x < a.length) (hy : 0 ≤ y) (hy2 : y < a.length)
    (hxl : low ≤ x) (hxh : x ≤ high) (hyl : low ≤ y) (hyh : y ≤ high) :
    Rearranged low high a (swapCells a x y) := by
  refine ⟨length_swapCells a x y, perm_swapCells a x y hx hx2 hy hy2, ?_, ?_⟩
  · intro k hk
    rw [cell_swapCells a x y k hx hx2 hy hy2]
    have h1 : k ≠ y := by omega
    have h2 : k ≠ x := by omega
    simp [h1, h2]
  · intro k hk1 hk2
    rw [cell_swapCells a x y k hx hx2 hy hy2]
    by_cases h1 : k = y
    · exact ⟨x, hxl, hxh, by simp [h1]⟩
    · by_cases h2 : k = x
      · exact ⟨y, hyl, hyh, by rw [if_neg h1, if_pos h2]⟩
      · exact ⟨k, hk1, hk2, by rw [if_neg h1, if_neg h2]⟩

/-! ## The scan loop of `partition` -/

/-- Invariant rule for the scan loop: a predicate on `(i, j, state)` that holds
on entry and is kept by both kinds of iteration holds at exit, where `j = high`;
the loop returns, and the buffer keeps its length `n`. -/
theorem partition_loop_inv (pivot low high : Int) (n : Nat) (P : Int → Int → State → Prop)
    (hlow : 0 ≤ low) (hhigh : high < n)
    (hlt : ∀ (i j : Int) (s : State), P i j s → s.arr.length = n → low - 1 ≤ i → i < j →
      j < high → cell s.arr j < pivot →
      P (i + 1) (j + 1) ⟨swapCells s.arr (i + 1) j,
        (s.log ++ [.read j]) ++ [.read (i + 1), .read j, .write (i + 1), .write j]⟩)
    (hge : ∀ (i j : Int) (s : State), P i j s → s.arr.length = n → low - 1 ≤ i → i < j →
      j < high → ¬ cell s.arr j < pivot → P i (j + 1) (s.emit (.read j))) :
    ∀ (fuel : Nat) (i j : Int) (s : State), s.arr.length = n → low - 1 ≤ i → i < j →
      j ≤ high → (high - j).toNat < fuel → P i j s →
      ∃ i2 s2, partition_loop fuel pivot high i j s = .ok (i2, s2) ∧ low - 1 ≤ i2 ∧
        i2 < high ∧ s2.arr.length = n ∧ P i2 high s2 := by
  intro fuel
  induction fuel with
  | zero => intro i j s _ _ _ _ hf; omega
  | succ fuel ih =>
    intro i j s hn hi hij hj hf hP
    unfold partition_loop
    by_cases hjh : j ≤ high - 1
    · have hj0 : 0 ≤ j := by omega
      have hj1 : j < s.arr.length := by omega
      rw [if_pos hjh, load_ok s j hj0 hj1]
      simp only []
      by_cases hv : cell s.arr j < pivot
      · rw [if_pos hv, swap_ok (s.emit (.read j)) (i + 1) j (by omega)
          (by simp only [State.emit]; omega) hj0 (by simp only [State.emit]; omega)]
        simp only []
        have hP2 := hlt i j s hP hn hi hij (by omega) hv
        exact ih (i + 1) (j + 1) _ (by simp [State.emit, length_swapCells, hn]) (by omega)
          (by omega) (by omega) (by omega) hP2
      · rw [if_neg hv]
        have hP2 := hge i j s hP hn hi hij (by omega) hv
        exact ih i (j + 1) _ (by simp [State.emit, hn]) hi (by omega) (by omega) (by omega) hP2
    · rw [if_neg hjh]
      have : j = high := by omega
      subst this
      exact ⟨i, s, rfl, hi, hij, hn, hP⟩

/-- What the scan loop maintains: the buffer is a rearrangement of the entry
buffer `a0` inside `low..high-1`, cells `low..i` are below the pivot, and cells
`i+1..j-1` are not. -/
theorem partition_loop_spec (pivot low high : Int) (s : State)
    (hlow : 0 ≤ low) (hle : low ≤ high) (hhigh : high < s.arr.length) :
    ∃ i2 s2, partition_loop ((high - low).toNat + 1) pivot high (low - 1) low s = .ok (i2, s2) ∧
      low - 1 ≤ i2 ∧ i2 < high ∧ Rearranged low (high - 1) s.arr s2.arr ∧
      (∀ k : Int, low ≤ k → k ≤ i2 → cell s2.arr k < pivot) ∧
      (∀ k : Int, i2 < k → k < high → pivot ≤ cell s2.arr k) := by
  have key := partition_loop_inv pivot low high s.arr.length
    (fun i j t => Rearranged low (high - 1) s.arr t.arr ∧
      (∀ k : Int, low ≤ k → k ≤ i → cell t.arr k < pivot) ∧
      (∀ k : Int, i < k → k < j → pivot ≤ cell t.arr k)) hlow hhigh ?_ ?_
    ((high - low).toNat + 1) (low - 1) low s rfl (le_refl _) (by omega) hle (by omega)
    ⟨Rearranged.refl _ _ _, fun k h1 h2 => by omega, fun k h1 h2 => by omega⟩
  · obtain ⟨i2, s2, e, h1, h2, _, hR, hA, hB⟩ := key
    exact ⟨i2, s2, e, h1, h2, hR, hA, hB⟩
  · rintro i j t ⟨hR, hA, hB⟩ hn hi hij hj hv
    have b1 : (0 : Int) ≤ i + 1 := by omega
    have b2 : i + 1 < t.arr.length := by omega
    have b3 : (0 : Int) ≤ j := by omega
    have b4 : j < t.arr.length := by omega
    refine ⟨hR.trans (rearranged_swapCells low (high - 1) t.arr (i + 1) j b1 b2 b3 b4
      (by omega) (by omega) (by omega) (by omega)), ?_, ?_⟩
    · intro k hk1 hk2
      show cell (swapCells t.arr (i + 1) j) k < pivot
      rw [cell_swapCells t.arr (i + 1) j k b1 b2 b3 b4]
      by_cases e1 : k = j
      · rw [if_pos e1]
        have : i + 1 = j := by omega
        rw [this]; exact hv
      · rw [if_neg e1]
        by_cases e2 : k = i + 1
        · rw [if_pos e2]; exact hv
        · rw [if_neg e2]; exact hA k hk1 (by omega)
    · intro k hk1 hk2
      show pivot ≤ cell (swapCells t.arr (i + 1) j) k
      rw [cell_swapCells t.arr (i + 1) j k b1 b2 b3 b4]
      by_cases e1 : k = j
      · rw [if_pos e1]; exact hB (i + 1) (by omega) (by omega)
      · rw [if_neg e1, if_neg (by omega)]; exact hB k (by omega) (by omega)
  · rintro i j t ⟨hR, hA, hB⟩ hn hi hij hj hv
    refine ⟨hR, hA, ?_⟩
    intro k hk1 hk2
    show pivot ≤ cell t.arr k
    by_cases e1 : k = j
    · rw [e1]; exact not_lt.mp hv
    · exact hB k hk1 (by omega)

/-- Contract of `partition` on a range inside the buffer: it returns an index
`p` of the range, the buffer is rearranged inside `low..high` only, the pivot
sits at `p`, the cells before `p` are below the pivot and those after are not. -/
theorem partition_spec (s : State) (low high : Int)
    (hlow : 0 ≤ low) (hle : low ≤ high) (hhigh : high < s.arr.length) :
    ∃ p s2, partition s low high = .ok (p, s2) ∧ low ≤ p ∧ p ≤ high ∧
      Rearranged low high s.arr s2.arr ∧ cell s2.arr p = cell s.arr high ∧
      (∀ k : Int, low ≤ k → k < p → cell s2.arr k < cell s.arr high) ∧
      (∀ k : Int, p < k → k ≤ high → cell s.arr high ≤ cell s2.arr k) := by
  unfold partition
  rw [load_ok _ high (by omega) (by simpa [State.emit] using hhigh)]
  simp only []
  obtain ⟨i2, s2, e, h1, h2, hR, hA, hB⟩ := partition_loop_spec (cell s.arr high) low high
    ((s.emit (.partition low high)).emit (.read high)) hlow hle (by simpa [State.emit] using hhigh)
  have hR : Rearranged low (high - 1) s.arr s2.arr := hR
  simp only [State.emit] at e ⊢
  rw [e]
  simp only []
  have hlen : s2.arr.length = s.arr.length := hR.length_eq
  have b1 : (0 : Int) ≤ i2 + 1 := by omega
  have b2 : i2 + 1 < s2.arr.length := by omega
  have b3 : (0 : Int) ≤ high := by omega
  have b4 : high < s2.arr.length := by omega
  rw [swap_ok s2 (i2 + 1) high b1 b2 b3 b4]
  have hpiv : cell s2.arr high = cell s.arr high := hR.frame high (by omega)
  refine ⟨i2 + 1, _, rfl, by omega, by omega, ?_, ?_, ?_, ?_⟩
  · exact (hR.mono (le_refl _) (by omega)).trans
      (rearranged_swapCells low high s2.arr (i2 + 1) high b1 b2 b3 b4 (by omega) (by omega)
        (by omega) (le_refl _))
  · show cell (swapCells s2.arr (i2 + 1) high) (i2 + 1) = cell s.arr high
    rw [cell_swapCells s2.arr (i2 + 1) high _ b1 b2 b3 b4]
    by_cases e1 : i2 + 1 = high
    · rw [if_pos e1, e1]; exact hpiv
    · rw [if_neg e1, if_pos rfl]; exact hpiv
  · intro k hk1 hk2
    show cell (swapCells s2.arr (i2 + 1) high) k < cell s.arr high
    rw [cell_swapCells s2.arr (i2 + 1) high _ b1 b2 b3 b4, if_neg (by omega), if_neg (by omega)]
    exact hA k hk1 (by omega)
  · intro k hk1 hk2
    show cell s.arr high ≤ cell (swapCells s2.arr (i2 + 1) high) k
    rw [cell_swapCells s2.arr (i2 + 1) high _ b1 b2 b3 b4]
    by_cases e1 : k = high
    · rw [if_pos e1]; exact hB (i2 + 1) (by omega) (by omega)
    · rw [if_neg e1, if_neg (by omega)]; exact hB k (by omega) (by omega)

/-! ## `sort_s` -/

theorem Rearranged.forall_inside {l h : Int} {a b : List Int} (hr : Rearranged l h a b)
    (Q : Int → Prop) (hQ : ∀ k : Int, l ≤ k → k ≤ h → Q (cell a k)) :
    ∀ k : Int, l ≤ k → k ≤ h → Q (cell b k) := by
  intro k h1 h2
  obtain ⟨k2, a1, a2, e⟩ := hr.inside k h1 h2
  rw [e]
  exact hQ k2 a1 a2

theorem Rearranged.forall_outside {l h : Int} {a b : List Int} (hr : Rearranged l h a b)
    (l2 h2 : Int) (hd : h2 < l ∨ h < l2)
    (Q : Int → Prop) (hQ : ∀ k : Int, l2 ≤ k → k ≤ h2 → Q (cell a k)) :
    ∀ k : Int, l2 ≤ k → k ≤ h2 → Q (cell b k) := by
  intro k h1 h2
  rw [hr.frame k (by omega)]
  exact hQ k h1 h2

theorem SortedOn.of_frame {l h l2 h2 : Int} {a b : List Int} (hs : SortedOn a l2 h2)
    (hr : Rearranged l h a b) (hd : h2 < l ∨ h < l2) : SortedOn b l2 h2 := by
  intro i h1 h2
  rw [hr.frame i (by omega), hr.frame (i + 1) (by omega)]
  exact hs i h1 h2

/-- Two sorted blocks around a pivot cell that separates them form one sorted
range. -/
theorem sortedOn_join (a : List Int) (low p high pivot : Int)
    (hp : cell a p = pivot)
    (hL : ∀ k : Int, low ≤ k → k ≤ p - 1 → cell a k < pivot)
    (hR : ∀ k : Int, p + 1 ≤ k → k ≤ high → pivot ≤ cell a k)
    (sL : SortedOn a low (p - 1)) (sR : SortedOn a (p + 1) high) : SortedOn a low high := by
  intro i h1 h2
  rcases lt_trichotomy (i + 1) p with h | h | h
  · exact sL i h1 (by omega)
  · rw [h, hp]
    exact le_of_lt (hL i h1 (by omega))
  · by_cases e : i = p
    · rw [e, hp]
      exact hR (p + 1) (le_refl _) (by omega)
    · exact sR i (by omega) h2

theorem sort_s_base (fuel : Nat) (s : State) (low high : Int) (h : high ≤ low) :
    sort_s fuel s low high = .ok (s.emit (.sort_s low high)) := by
  rw [sort_s.eq_def, if_neg (by omega)]

/-- Contract of `sort_s` on a range inside the buffer, given fuel for
`high - low` nested levels: it returns, the buffer is rearranged inside
`low..high` only, and the range is non-descending. -/
theorem sort_s_spec : ∀ (fuel : Nat) (s : State) (low high : Int),
    0 ≤ low → high < s.arr.length → (high - low).toNat ≤ fuel →
    ∃ s2, sort_s fuel s low high = .ok s2 ∧ Rearranged low high s.arr s2.arr ∧
      SortedOn s2.arr low high := by
  intro fuel
  induction fuel with
  | zero =>
    intro s low high _ _ hf
    have h : high ≤ low := by omega
    exact ⟨_, sort_s_base 0 s low high h, Rearranged.refl _ _ _, fun i h1 h2 => by omega⟩
  | succ fuel ih =>
    intro s low high hlow hhigh hf
    by_cases h : high ≤ low
    · exact ⟨_, sort_s_base _ s low high h, Rearranged.refl _ _ _, fun i h1 h2 => by omega⟩
    · obtain ⟨p, s1, e1, hp1, hp2, hR1, hpiv, hA, hB⟩ :=
        partition_spec (s.emit (.sort_s low high)) low high hlow (by omega) hhigh
      have hR1 : Rearranged low high s.arr s1.arr := hR1
      have hpiv : cell s1.arr p = cell s.arr high := hpiv
      have hA : ∀ k : Int, low ≤ k → k ≤ p - 1 → cell s1.arr k < cell s.arr high :=
        fun k h1 h2 => hA k h1 (by omega)
      have hB : ∀ k : Int, p + 1 ≤ k → k ≤ high → cell s.arr high ≤ cell s1.arr k :=
        fun k h1 h2 => hB k (by omega) h2
      have len1 : s1.arr.length = s.arr.length := hR1.length_eq
      obtain ⟨s2, e2, hR2, hS2⟩ := ih s1 low (p - 1) hlow (by omega) (by omega)
      have len2 : s2.arr.length = s1.arr.length := hR2.length_eq
      obtain ⟨s3, e3, hR3, hS3⟩ := ih s2 (p + 1) high (by omega) (by omega) (by omega)
      refine ⟨s3, ?_, ?_, ?_⟩
      · rw [sort_s.eq_def, if_pos (by omega)]
        simp only []
        rw [e1]
        simp only []
        rw [e2]
        simp only []
        exact e3
      · exact hR1.trans ((hR2.mono (le_refl _) (by omega)).trans (hR3.mono (by omega) (le_refl _)))
      · apply sortedOn_join s3.arr low p high (cell s.arr high)
        · rw [hR3.frame p (by omega), hR2.frame p (by omega)]
          exact hpiv
        · exact hR3.forall_outside low (p - 1) (by omega) (fun v => v < cell s.arr high)
            (hR2.forall_inside (fun v => v < cell s.arr high) hA)
        · exact hR3.forall_inside (fun v => cell s.arr high ≤ v)
            (hR2.forall_outside (p + 1) high (by omega) (fun v => cell s.arr high ≤ v) hB)
        · exact hS2.of_frame hR3 (by omega)
        · exact hS3

/-! ## Slices -/

theorem cell_natCast (a : List Int) (i : Nat) : cell a (i : Int) = (a[i]?).getD 0 := by
  have h : ¬ ((i : Int) < 0) := by omega
  simp [cell, h]

theorem getElem?_eq_of_cell {a b : List Int} (hlen : b.length = a.length) (i : Nat)
    (h : cell b (i : Int) = cell a (i : Int)) : b[i]? = a[i]? := by
  rw [cell_natCast, cell_natCast] at h
  by_cases hi : i < a.length
  · have hb : i < b.length := by omega
    rw [List.getElem?_eq_getElem hi, List.getElem?_eq_getElem hb] at h ⊢
    simpa using h
  · have hb : ¬ i < b.length := by omega
    rw [List.getElem?_eq_none (by omega), List.getElem?_eq_none (by omega)]

theorem eq_of_cell {a b : List Int} (hlen : b.length = a.length)
    (h : ∀ k : Int, cell b k = cell a k) : b = a :=
  List.ext_getElem? fun i => getElem?_eq_of_cell hlen i (h i)

theorem take_eq_of_frame {a b : List Int} (hlen : b.length = a.length) (n : Nat)
    (h : ∀ k : Int, k < n → cell b k = cell a k) : b.take n = a.take n := by
  apply List.ext_getElem?
  intro i
  rw [List.getElem?_take, List.getElem?_take]
  by_cases hi : i < n
  · rw [if_pos hi, if_pos hi]
    exact getElem?_eq_of_cell hlen i (h i (by omega))
  · rw [if_neg hi, if_neg hi]

theorem drop_eq_of_frame {a b : List Int} (hlen : b.length = a.length) (n : Nat)
    (h : ∀ k : Int, (n : Int) ≤ k → cell b k = cell a k) : b.drop n = a.drop n := by
  apply List.ext_getElem?
  intro i
  rw [List.getElem?_drop, List.getElem?_drop]
  exact getElem?_eq_of_cell hlen (n + i) (h _ (by omega))

theorem slice_decomp (a : List Int) (l h : Int) (hl : 0 ≤ l) (hlh : l ≤ h + 1) :
    a = a.take l.toNat ++ slice a l h ++ a.drop (h + 1).toNat := by
  have e : (h + 1).toNat = l.toNat + (h + 1 - l).toNat := by omega
  unfold slice
  rw [e, ← List.drop_drop, List.append_assoc, List.take_append_drop, List.take_append_drop]

theorem getElem?_slice (a : List Int) (l h : Int) (i : Nat) :
    (slice a l h)[i]? = if (i : Int) < h + 1 - l then (a[l.toNat + i]?) else none := by
  unfold slice
  rw [List.getElem?_take, List.getElem?_drop]
  by_cases hi : (i : Int) < h + 1 - l
  · rw [if_pos hi, if_pos (by omega)]
  · rw [if_neg hi, if_neg (by omega)]

theorem length_slice (a : List Int) (l h : Int) (hl : 0 ≤ l) (hh : h < a.length) :
    (slice a l h).length = (h + 1 - l).toNat := by
  unfold slice
  rw [List.length_take, List.length_drop]
  omega

theorem getElem_slice (a : List Int) (l h : Int) (i : Nat) (hl : 0 ≤ l)
    (hi : i < (slice a l h).length) (hh : h < a.length) :
    (slice a l h)[i] = cell a (l + i) := by
  have hlen := length_slice a l h hl hh
  have h1 : (slice a l h)[i]? = some (slice a l h)[i] := List.getElem?_eq_getElem hi
  rw [getElem?_slice a l h i, if_pos (by omega)] at h1
  have e : l + (i : Int) = ((l.toNat + i : Nat) : Int) := by omega
  rw [e, cell_natCast, h1]
  rfl

/-- A rearrangement inside `l..h` permutes the slice `l..h`. -/
theorem Rearranged.slice_perm {l h : Int} {a b : List Int} (hr : Rearranged l h a b)
    (hl : 0 ≤ l) (hlh : l ≤ h + 1) : (slice b l h).Perm (slice a l h) := by
  have ht : b.take l.toNat = a.take l.toNat :=
    take_eq_of_frame hr.length_eq _ fun k hk => hr.frame k (by omega)
  have hd : b.drop (h + 1).toNat = a.drop (h + 1).toNat :=
    drop_eq_of_frame hr.length_eq _ fun k hk => hr.frame k (by omega)
  have hp := hr.perm
  rw [slice_decomp a l h hl hlh, slice_decomp b l h hl hlh, ht, hd] at hp
  exact (List.perm_append_left_iff _).mp ((List.perm_append_right_iff _).mp hp)

theorem SortedOn.pairwise {a : List Int} {l h : Int} (hs : SortedOn a l h) :
    ∀ (d : Nat) (i : Int), l ≤ i → i + d ≤ h → cell a i ≤ cell a (i + d) := by
  intro d
  induction d with
  | zero => intro i _ _; simp
  | succ d ih =>
    intro i h1 h2
    have h3 := ih i h1 (by omega)
    have h4 := hs (i + d) (by omega) (by omega)
    have e : i + ((d + 1 : Nat) : Int) = i + d + 1 := by omega
    rw [e]
    exact le_trans h3 h4

theorem SortedOn.sorted_slice {a : List Int} {l h : Int} (hs : SortedOn a l h)
    (hl : 0 ≤ l) (hh : h < a.length) : (slice a l h).Sorted (· ≤ ·) := by
  rw [List.Sorted, List.pairwise_iff_getElem]
  intro i j hi hj hij
  rw [getElem_slice a l h i hl hi hh, getElem_slice a l h j hl hj hh]
  have hlen := length_slice a l h hl hh
  have := hs.pairwise (j - i) (l + i) (by omega) (by omega)
  have e : l + (i : Int) + ((j - i : Nat) : Int) = l + j := by omega
  rw [e] at this
  exact this

/-- A buffer has at most one non-descending rearrangement inside a range. -/
theorem rearranged_sorted_unique {l h : Int} {x a b : List Int}
    (ha : Rearranged l h x a) (hb : Rearranged l h x b)
    (sa : SortedOn a l h) (sb : SortedOn b l h) (hl : 0 ≤ l) (hh : h < x.length) : a = b := by
  by_cases hlh : l ≤ h + 1
  · have la : a.length = x.length := ha.length_eq
    have lb : b.length = x.length := hb.length_eq
    have hs : slice a l h = slice b l h :=
      List.eq_of_perm_of_sorted ((ha.slice_perm hl hlh).trans (hb.slice_perm hl hlh).symm)
        (sa.sorted_slice hl (by omega)) (sb.sorted_slice hl (by omega))
    have ht : a.take l.toNat = b.take l.toNat :=
      (take_eq_of_frame la _ fun k hk => ha.frame k (by omega)).trans
        (take_eq_of_frame lb _ fun k hk => hb.frame k (by omega)).symm
    have hd : a.drop (h + 1).toNat = b.drop (h + 1).toNat :=
      (drop_eq_of_frame la _ fun k hk => ha.frame k (by omega)).trans
        (drop_eq_of_frame lb _ fun k hk => hb.frame k (by omega)).symm
    rw [slice_decomp a l h hl hlh, slice_decomp b l h hl hlh, hs, ht, hd]
  · have e1 : a = x := eq_of_cell ha.length_eq fun k => ha.frame k (by omega)
    have e2 : b = x := eq_of_cell hb.length_eq fun k => hb.frame k (by omega)
    rw [e1, e2]

/-! ## The two child calls after a partition -/

/-- The child calls of a partitioned range, left block first. -/
theorem children_left_right (fuel : Nat) (s1 : State) (low p high pivot : Int)
    (hlow : 0 ≤ low) (hp1 : low ≤ p) (hp2 : p ≤ high) (hhigh : high < s1.arr.length)
    (hf : (high - low).toNat ≤ fuel + 1) (hpiv : cell s1.arr p = pivot)
    (hA : ∀ k : Int, low ≤ k → k ≤ p - 1 → cell s1.arr k < pivot)
    (hB : ∀ k : Int, p + 1 ≤ k → k ≤ high → pivot ≤ cell s1.arr k) :
    ∃ s2 s3, sort_s fuel s1 low (p - 1) = .ok s2 ∧ sort_s fuel s2 (p + 1) high = .ok s3 ∧
      Rearranged low high s1.arr s3.arr ∧ SortedOn s3.arr low high := by
  obtain ⟨s2, e2, hR2, hS2⟩ := sort_s_spec fuel s1 low (p - 1) hlow (by omega) (by omega)
  have len2 : s2.arr.length = s1.arr.length := hR2.length_eq
  obtain ⟨s3, e3, hR3, hS3⟩ := sort_s_spec fuel s2 (p + 1) high (by omega) (by omega) (by omega)
  refine ⟨s2, s3, e2, e3, ?_, ?_⟩
  · exact (hR2.mono (le_refl _) (by omega)).trans (hR3.mono (by omega) (le_refl _))
  · apply sortedOn_join s3.arr low p high pivot
    · rw [hR3.frame p (by omega), hR2.frame p (by omega)]
      exact hpiv
    · exact hR3.forall_outside low (p - 1) (by omega) (fun v => v < pivot)
        (hR2.forall_inside (fun v => v < pivot) hA)
    · exact hR3.forall_inside (fun v => pivot ≤ v)
        (hR2.forall_outside (p + 1) high (by omega) (fun v => pivot ≤ v) hB)
    · exact hS2.of_frame hR3 (by omega)
    · exact hS3

/-- The child calls of a partitioned range, right block first. -/
theorem children_right_left (fuel : Nat) (s1 : State) (low p high pivot : Int)
    (hlow : 0 ≤ low) (hp1 : low ≤ p) (hp2 : p ≤ high) (hhigh : high < s1.arr.length)
    (hf : (high - low).toNat ≤ fuel + 1) (hpiv : cell s1.arr p = pivot)
    (hA : ∀ k : Int, low ≤ k → k ≤ p - 1 → cell s1.arr k < pivot)
    (hB : ∀ k : Int, p + 1 ≤ k → k ≤ high → pivot ≤ cell s1.arr k) :
    ∃ s2 s3, sort_s fuel s1 (p + 1) high = .ok s2 ∧ sort_s fuel s2 low (p - 1) = .ok s3 ∧
      Rearranged low high s1.arr s3.arr ∧ SortedOn s3.arr low high := by
  obtain ⟨s2, e2, hR2, hS2⟩ := sort_s_spec fuel s1 (p + 1) high (by omega) hhigh (by omega)
  have len2 : s2.arr.length = s1.arr.length := hR2.length_eq
  obtain ⟨s3, e3, hR3, hS3⟩ := sort_s_spec fuel s2 low (p - 1) hlow (by omega) (by omega)
  refine ⟨s2, s3, e2, e3, ?_, ?_⟩
  · exact (hR2.mono (by omega) (le_refl _)).trans (hR3.mono (le_refl _) (by omega))
  · apply sortedOn_join s3.arr low p high pivot
    · rw [hR3.frame p (by omega), hR2.frame p (by omega)]
      exact hpiv
    · exact hR3.forall_inside (fun v => v < pivot)
        (hR2.forall_outside low (p - 1) (by omega) (fun v => v < pivot) hA)
    · exact hR3.forall_outside (p + 1) high (by omega) (fun v => pivot ≤ v)
        (hR2.forall_inside (fun v => pivot ≤ v) hB)
    · exact hS3
    · exact hS2.of_frame hR3 (by omega)

/-- Contract of `startQuickSortParallel` on a range inside the buffer, under
either schedule of the two tasks. -/
theorem startQuickSortParallel_spec (fuel : Nat) (sched : Schedule) (s : State) (low high : Int)
    (hlow : 0 ≤ low) (hhigh : high < s.arr.length) (hf : (high - low).toNat ≤ fuel) :
    ∃ s2, startQuickSortParallel fuel sched s low high = .ok s2 ∧
      Rearranged low high s.arr s2.arr ∧ SortedOn s2.arr low high := by
  unfold startQuickSortParallel sort_p
  by_cases h : low < high
  · rw [if_pos h]
    obtain ⟨p, s1, e1, hp1, hp2, hR1, hpiv, hA, hB⟩ :=
      partition_spec (s.emit (.sort_p low high)) low high hlow (by omega) hhigh
    have hR1 : Rearranged low high s.arr s1.arr := hR1
    rw [e1]
    simp only []
    have len1 : s1.arr.length = s.arr.length := hR1.length_eq
    cases sched with
    | submission =>
      obtain ⟨s2, s3, e2, e3, hR, hS⟩ := children_left_right fuel
        ((s1.emit (.task low (p - 1))).emit (.task (p + 1) high)) low p high _ hlow hp1 hp2
        (by simp only [State.emit]; omega) (by omega) hpiv
        (fun k h1 h2 => hA k h1 (by omega)) (fun k h1 h2 => hB k (by omega) h2)
      refine ⟨s3, ?_, hR1.trans hR, hS⟩
      simp only [Schedule.arrange, runTasks]
      rw [e2]
      simp only []
      rw [e3]
    | reversed =>
      obtain ⟨s2, s3, e2, e3, hR, hS⟩ := children_right_left fuel
        ((s1.emit (.task low (p - 1))).emit (.task (p + 1) high)) low p high _ hlow hp1 hp2
        (by simp only [State.emit]; omega) (by omega) hpiv
        (fun k h1 h2 => hA k h1 (by omega)) (fun k h1 h2 => hB k (by omega) h2)
      refine ⟨s3, ?_, hR1.trans hR, hS⟩
      simp only [Schedule.arrange, List.reverse_cons, List.reverse_nil, List.nil_append,
        List.singleton_append, runTasks]
      rw [e2]
      simp only []
      rw [e3]
  · rw [if_neg h]
    refine ⟨s.emit (.sort_p low high), ?_, Rearranged.refl _ _ _, fun i h1 h2 => by omega⟩
    cases sched <;> rfl

theorem slice_split (a : List Int) (l p h : Int) (hl : 0 ≤ l) (hlp : l ≤ p) (hph : p ≤ h)
    (hh : h < a.length) :
    slice a l h = slice a l (p - 1) ++ cell a p :: slice a (p + 1) h := by
  have hp : p.toNat < a.length := by omega
  have e1 : (h + 1 - l).toNat = (p - 1 + 1 - l).toNat + ((h + 1 - (p + 1)).toNat + 1) := by omega
  have e2 : l.toNat + (p - 1 + 1 - l).toNat = p.toNat := by omega
  have e3 : p.toNat + 1 = (p + 1).toNat := by omega
  have e4 : a[p.toNat] = cell a p := by
    have e5 : cell a p = cell a ((p.toNat : Nat) : Int) := by
      congr 1
      omega
    rw [e5, cell_natCast, List.getElem?_eq_getElem hp]
    rfl
  unfold slice
  rw [e1, List.take_add, List.drop_drop, e2, List.drop_eq_getElem_cons hp, List.take_succ_cons,
    e3, e4]

theorem count_slice_eq_zero (a : List Int) (l h v : Int) (hl : 0 ≤ l) (hh : h < a.length)
    (hne : ∀ k : Int, l ≤ k → k ≤ h → cell a k ≠ v) : (slice a l h).count v = 0 := by
  rw [List.count_eq_zero]
  intro hmem
  obtain ⟨i, hi, e⟩ := List.getElem_of_mem hmem
  rw [getElem_slice a l h i hl hi hh] at e
  have hlen := length_slice a l h hl hh
  exact hne (l + i) (by omega) (by omega) e

/-! ## The log: where the buffer is accessed -/

theorem AccessesIn.append {low high : Int} {e1 e2 : List Event}
    (h1 : AccessesIn low high e1) (h2 : AccessesIn low high e2) :
    AccessesIn low high (e1 ++ e2) := by
  intro k hk
  simp only [List.mem_append] at hk
  rcases hk with (h | h) | (h | h)
  · exact h1 k (Or.inl h)
  · exact h2 k (Or.inl h)
  · exact h1 k (Or.inr h)
  · exact h2 k (Or.inr h)

theorem AccessesIn.weaken {low high low2 high2 : Int} {evs : List Event}
    (h : AccessesIn low high evs) (hl : low2 ≤ low) (hh : high ≤ high2) :
    AccessesIn low2 high2 evs := by
  intro k hk
  have := h k hk
  omega

/-- Log of the scan loop: it appends events whose reads and writes all lie in
`low..high-1`. -/
theorem partition_loop_log (pivot low high : Int) (s : State)
    (hlow : 0 ≤ low) (hle : low ≤ high) (hhigh : high < s.arr.length) :
    ∃ i2 s2 evs, partition_loop ((high - low).toNat + 1) pivot high (low - 1) low s
        = .ok (i2, s2) ∧ s2.log = s.log ++ evs ∧ AccessesIn low (high - 1) evs := by
  have key := partition_loop_inv pivot low high s.arr.length
    (fun _ _ t => ∃ evs, t.log = s.log ++ evs ∧ AccessesIn low (high - 1) evs) hlow hhigh ?_ ?_
    ((high - low).toNat + 1) (low - 1) low s rfl (le_refl _) (by omega) hle (by omega)
    ⟨[], by simp, fun k hk => by simp at hk⟩
  · obtain ⟨i2, s2, e, _, _, _, evs, h1, h2⟩ := key
    exact ⟨i2, s2, evs, e, h1, h2⟩
  · rintro i j t ⟨evs, h1, h2⟩ _ hi hij hj _
    refine ⟨evs ++ ([.read j] ++ [.read (i + 1), .read j, .write (i + 1), .write j]), ?_, ?_⟩
    · show (t.log ++ [.read j]) ++ _ = _
      rw [h1]
      simp
    · apply h2.append
      intro k hk
      simp at hk
      omega
  · rintro i j t ⟨evs, h1, h2⟩ _ hi hij hj _
    refine ⟨evs ++ [.read j], ?_, ?_⟩
    · show t.log ++ [.read j] = _
      rw [h1]
      simp
    · apply h2.append
      intro k hk
      simp at hk
      omega

/-- Log of `partition`: the call event, then events whose reads and writes all
lie in `low..high`. -/
theorem partition_log (s : State) (low high : Int)
    (hlow : 0 ≤ low) (hle : low ≤ high) (hhigh : high < s.arr.length) :
    ∃ p s2 evs, partition s low high = .ok (p, s2) ∧
      s2.log = s.log ++ Event.partition low high :: evs ∧ AccessesIn low high evs := by
  obtain ⟨i2, s2, e, h1, h2, hR, _, _⟩ := partition_loop_spec (cell s.arr high) low high
    ((s.emit (.partition low high)).emit (.read high)) hlow hle (by simpa [State.emit] using hhigh)
  obtain ⟨i3, s3, evs, e3, hlog, hacc⟩ := partition_loop_log (cell s.arr high) low high
    ((s.emit (.partition low high)).emit (.read high)) hlow hle (by simpa [State.emit] using hhigh)
  have hinj := Except.ok.inj (e.symm.trans e3)
  have hi : i2 = i3 := congrArg Prod.fst hinj
  have hs : s2 = s3 := congrArg Prod.snd hinj
  subst hi hs
  have hlen : s2.arr.length = s.arr.length := hR.length_eq
  unfold partition
  rw [load_ok _ high (by omega) (by simpa [State.emit] using hhigh)]
  simp only [State.emit] at e hlog ⊢
  rw [e]
  simp only []
  rw [swap_ok s2 (i2 + 1) high (by omega) (by omega) (by omega) (by omega)]
  refine ⟨i2 + 1, _, [.read high] ++ evs ++
    [.read (i2 + 1), .read high, .write (i2 + 1), .write high], rfl, ?_, ?_⟩
  · show s2.log ++ _ = _
    rw [hlog]
    simp
  · apply AccessesIn.append
    · apply AccessesIn.append
      · intro k hk
        simp at hk
        omega
      · exact hacc.weaken (le_refl _) (by omega)
    · intro k hk
      simp at hk
      omega

/-- Log of `sort_s`: it appends events whose reads and writes all lie in
`low..high`. -/
theorem sort_s_log : ∀ (fuel : Nat) (s : State) (low high : Int),
    0 ≤ low → high < s.arr.length → (high - low).toNat ≤ fuel →
    ∃ s2 evs, sort_s fuel s low high = .ok s2 ∧ s2.log = s.log ++ evs ∧
      AccessesIn low high evs := by
  intro fuel
  induction fuel with
  | zero =>
    intro s low high _ _ hf
    have h : high ≤ low := by omega
    exact ⟨_, [.sort_s low high], sort_s_base 0 s low high h, rfl, fun k hk => by simp at hk⟩
  | succ fuel ih =>
    intro s low high hlow hhigh hf
    by_cases h : high ≤ low
    · exact ⟨_, [.sort_s low high], sort_s_base _ s low high h, rfl, fun k hk => by simp at hk⟩
    · obtain ⟨p, s1, e1, hp1, hp2, hR1, _, _, _⟩ :=
        partition_spec (s.emit (.sort_s low high)) low high hlow (by omega) hhigh
      obtain ⟨p', s1', evs1, e1', hl1, ha1⟩ :=
        partition_log (s.emit (.sort_s low high)) low high hlow (by omega) hhigh
      have hinj := Except.ok.inj (e1.symm.trans e1')
      have hp : p = p' := congrArg Prod.fst hinj
      have hs : s1 = s1' := congrArg Prod.snd hinj
      subst hp hs
      have len1 : s1.arr.length = s.arr.length := hR1.length_eq
      obtain ⟨s2, e2, hR2, _⟩ := sort_s_spec fuel s1 low (p - 1) hlow (by omega) (by omega)
      obtain ⟨s2', evs2, e2', hl2, ha2⟩ := ih s1 low (p - 1) hlow (by omega) (by omega)
      have hs : s2 = s2' := Except.ok.inj (e2.symm.trans e2')
      subst hs
      have len2 : s2.arr.length = s1.arr.length := hR2.length_eq
      obtain ⟨s3, evs3, e3, hl3, ha3⟩ := ih s2 (p + 1) high (by omega) (by omega) (by omega)
      refine ⟨s3, [.sort_s low high] ++ (Event.partition low high :: evs1) ++ evs2 ++ evs3,
        ?_, ?_, ?_⟩
      · rw [sort_s.eq_def, if_pos (by omega)]
        simp only []
        rw [e1]
        simp only []
        rw [e2]
        simp only []
        exact e3
      · rw [hl3, hl2, hl1]
        simp [State.emit]
      · apply AccessesIn.append
        · apply AccessesIn.append
          · apply AccessesIn.append
            · intro k hk
              simp at hk
            · intro k hk
              simp only [List.mem_cons, reduceCtorEq, false_or] at hk
              exact ha1 k hk
          · exact ha2.weaken (le_refl _) (by omega)
        · exact ha3.weaken (by omega) (le_refl _)

/-! ## The claims -/

/-- Claim C1 (sortedness). On a range inside the buffer (`0 <= low`, `high < n`),
given fuel for `high - low` nested levels, `sort_s` returns and the cells at
`low..high` are non-descending: `arr[i] <= arr[i+1]` for `low <= i < high`.
`startQuickSortSequential` is the same call, and on the range `0..n-1` the whole
buffer comes back as a non-descending list. -/
theorem sort_s_sortedness (fuel : Nat) (s : State) (low high : Int)
    (hlow : 0 ≤ low) (hhigh : high < s.arr.length) (hfuel : (high - low).toNat ≤ fuel) :
    ∃ s2, sort_s fuel s low high = .ok s2 ∧
      startQuickSortSequential fuel s low high = .ok s2 ∧
      (∀ i : Int, low ≤ i → i < high → cell s2.arr i ≤ cell s2.arr (i + 1)) ∧
      (low = 0 → high = (s.arr.length : Int) - 1 → s2.arr.Sorted (· ≤ ·)) := by
  obtain ⟨s2, e, hR, hS⟩ := sort_s_spec fuel s low high hlow hhigh hfuel
  refine ⟨s2, e, e, hS, ?_⟩
  intro h0 h1
  have hlen : s2.arr.length = s.arr.length := hR.length_eq
  have hs := hS.sorted_slice hlow (by omega)
  have e2 : slice s2.arr low high = s2.arr := by
    have e3 : (high + 1 - low).toNat = s2.arr.length := by omega
    unfold slice
    rw [e3, h0]
    simp
  rw [e2] at hs
  exact hs

/-- Witness of claim C1: the hypotheses hold for the buffer `[3, 1, 2]`, range
`0..2` and fuel 2. -/
theorem sort_s_sortedness_witness :
    (0 : Int) ≤ 0 ∧ (2 : Int) < (State.mk [3, 1, 2] []).arr.length ∧
      ((2 : Int) - 0).toNat ≤ 2 ∧
      ∃ s2, sort_s 2 ⟨[3, 1, 2], []⟩ 0 2 = .ok s2 ∧
        startQuickSortSequential 2 ⟨[3, 1, 2], []⟩ 0 2 = .ok s2 ∧
        (∀ i : Int, 0 ≤ i → i < 2 → cell s2.arr i ≤ cell s2.arr (i + 1)) ∧
        ((0 : Int) = 0 → (2 : Int) = ((State.mk [3, 1, 2] []).arr.length : Int) - 1 →
          s2.arr.Sorted (· ≤ ·)) :=
  ⟨by decide, by decide, by decide,
    sort_s_sortedness 2 ⟨[3, 1, 2], []⟩ 0 2 (by decide) (by decide) (by decide)⟩

/-- Claim C2 (permutation invariance). On a range inside the buffer, `sort_s`
returns a buffer with the same multiset of elements as before the call, and so
does a single `partition` when `low <= high`. -/
theorem sort_s_partition_multiset (fuel : Nat) (s : State) (low high : Int)
    (hlow : 0 ≤ low) (hhigh : high < s.arr.length) (hfuel : (high - low).toNat ≤ fuel) :
    (∃ s2, sort_s fuel s low high = .ok s2 ∧
      Multiset.ofList s2.arr = Multiset.ofList s.arr) ∧
    (low ≤ high → ∃ p s2, partition s low high = .ok (p, s2) ∧
      Multiset.ofList s2.arr = Multiset.ofList s.arr) := by
  constructor
  · obtain ⟨s2, e, hR, _⟩ := sort_s_spec fuel s low high hlow hhigh hfuel
    exact ⟨s2, e, Quotient.sound hR.perm⟩
  · intro hle
    obtain ⟨p, s2, e, _, _, hR, _⟩ := partition_spec s low high hlow hle hhigh
    exact ⟨p, s2, e, Quotient.sound hR.perm⟩

/-- Witness of claim C2: the hypotheses hold for the buffer `[3, 1, 2]`, range
`0..2` and fuel 2. -/
theorem sort_s_partition_multiset_witness :
    (0 : Int) ≤ 0 ∧ (2 : Int) < (State.mk [3, 1, 2] []).arr.length ∧
      ((2 : Int) - 0).toNat ≤ 2 ∧
      (∃ s2, sort_s 2 ⟨[3, 1, 2], []⟩ 0 2 = .ok s2 ∧
        Multiset.ofList s2.arr = Multiset.ofList [3, 1, 2]) ∧
      ((0 : Int) ≤ 2 → ∃ p s2, partition ⟨[3, 1, 2], []⟩ 0 2 = .ok (p, s2) ∧
        Multiset.ofList s2.arr = Multiset.ofList [3, 1, 2]) :=
  ⟨by decide, by decide, by decide,
    sort_s_partition_multiset 2 ⟨[3, 1, 2], []⟩ 0 2 (by decide) (by decide) (by decide)⟩

/-- Claim C3 (equivalence of modes). On a range inside the buffer, with enough
fuel, `startQuickSortParallel` (one `partition`, then the two submitted tasks
run to completion in either order) on a copy of the buffer and
`startQuickSortSequential` on the buffer both return, with equal buffers. -/
theorem parallel_eq_sequential (fuel fuel2 : Nat) (sched : Schedule) (x : List Int)
    (lg lg2 : List Event) (low high : Int)
    (hlow : 0 ≤ low) (hhigh : high < x.length)
    (hfuel : (high - low).toNat ≤ fuel) (hfuel2 : (high - low).toNat ≤ fuel2) :
    ∃ sS sP, startQuickSortSequential fuel ⟨x, lg⟩ low high = .ok sS ∧
      startQuickSortParallel fuel2 sched ⟨x, lg2⟩ low high = .ok sP ∧ sP.arr = sS.arr := by
  obtain ⟨sS, eS, hRS, hSS⟩ := sort_s_spec fuel ⟨x, lg⟩ low high hlow hhigh hfuel
  obtain ⟨sP, eP, hRP, hSP⟩ :=
    startQuickSortParallel_spec fuel2 sched ⟨x, lg2⟩ low high hlow hhigh hfuel2
  exact ⟨sS, sP, eS, eP, rearranged_sorted_unique hRP hRS hSP hSS hlow hhigh⟩

/-- Witness of claim C3: the hypotheses hold for the buffer `[3, 1, 2]`, range
`0..2`, fuel 2 on both sides and the reversed task order. -/
theorem parallel_eq_sequential_witness :
    (0 : Int) ≤ 0 ∧ (2 : Int) < ([3, 1, 2] : List Int).length ∧ ((2 : Int) - 0).toNat ≤ 2 ∧
      ∃ sS sP, startQuickSortSequential 2 ⟨[3, 1, 2], []⟩ 0 2 = .ok sS ∧
        startQuickSortParallel 2 .reversed ⟨[3, 1, 2], []⟩ 0 2 = .ok sP ∧ sP.arr = sS.arr :=
  ⟨by decide, by decide, by decide,
    parallel_eq_sequential 2 2 .reversed [3, 1, 2] [] [] 0 2 (by decide) (by decide)
      (by decide) (by decide)⟩

/-- Claim C4, as stated, fails on the buffer `[4, 4]` with `low = 0`, `high = 1`
(pivot 4): `partition` compares once (`4 < 4` is false), swaps cell 0 with cell 1
and returns index 0, leaving `[4, 4]`; index 1 lies in `p+1..high` and holds 4,
which is not strictly greater than the pivot. So no returned index and state
satisfy the invariant with a strict upper block. -/
theorem partition_upper_block_not_strict :
    partition ⟨[4, 4], []⟩ 0 1 = .ok (0, ⟨[4, 4],
      [.partition 0 1, .read 1, .read 0, .read 0, .read 1, .write 0, .write 1]⟩) ∧
    ¬ (∃ p s2, partition ⟨[4, 4], []⟩ 0 1 = .ok (p, s2) ∧ cell s2.arr p = cell [4, 4] 1 ∧
      (∀ k : Int, 0 ≤ k → k ≤ p - 1 → cell s2.arr k ≤ cell [4, 4] 1) ∧
      (∀ k : Int, p + 1 ≤ k → k ≤ 1 → cell [4, 4] 1 < cell s2.arr k)) := by
  have ev : partition ⟨[4, 4], []⟩ 0 1 = .ok (0, ⟨[4, 4],
      [.partition 0 1, .read 1, .read 0, .read 0, .read 1, .write 0, .write 1]⟩) := rfl
  refine ⟨ev, ?_⟩
  rintro ⟨p, s2, e, _, _, h⟩
  have hinj := Except.ok.inj (ev.symm.trans e)
  have hp : (0 : Int) = p := congrArg Prod.fst hinj
  have hs : (⟨[4, 4],
      [.partition 0 1, .read 1, .read 0, .read 0, .read 1, .write 0, .write 1]⟩ : State) = s2 :=
    congrArg Prod.snd hinj
  subst hp hs
  exact absurd (h 1 (by decide) (by decide)) (by decide)

/-- Claim C4, amended (partition invariant). For a range `low <= high` inside
the buffer, with pivot the value of `arr[high]` before the call and `p` the
returned index: after the call `arr[p]` equals the pivot, every cell in
`low..p-1` is `<=` the pivot and every cell in `p+1..high` is `>=` the pivot. -/
theorem partition_invariant (s : State) (low high : Int)
    (hlow : 0 ≤ low) (hle : low ≤ high) (hhigh : high < s.arr.length) :
    ∃ p s2, partition s low high = .ok (p, s2) ∧ cell s2.arr p = cell s.arr high ∧
      (∀ k : Int, low ≤ k → k ≤ p - 1 → cell s2.arr k ≤ cell s.arr high) ∧
      (∀ k : Int, p + 1 ≤ k → k ≤ high → cell s.arr high ≤ cell s2.arr k) := by
  obtain ⟨p, s2, e, _, _, _, hpiv, hA, hB⟩ := partition_spec s low high hlow hle hhigh
  exact ⟨p, s2, e, hpiv, fun k h1 h2 => le_of_lt (hA k h1 (by omega)),
    fun k h1 h2 => hB k (by omega) h2⟩

/-- Witness of claim C4 as amended: the hypotheses hold for the buffer `[4, 4]`
and the range `0..1`. -/
theorem partition_invariant_witness :
    (0 : Int) ≤ 0 ∧ (0 : Int) ≤ 1 ∧ (1 : Int) < (State.mk [4, 4] []).arr.length ∧
      ∃ p s2, partition ⟨[4, 4], []⟩ 0 1 = .ok (p, s2) ∧ cell s2.arr p = cell [4, 4] 1 ∧
        (∀ k : Int, 0 ≤ k → k ≤ p - 1 → cell s2.arr k ≤ cell [4, 4] 1) ∧
        (∀ k : Int, p + 1 ≤ k → k ≤ 1 → cell [4, 4] 1 ≤ cell s2.arr k) :=
  ⟨by decide, by decide, by decide,
    partition_invariant ⟨[4, 4], []⟩ 0 1 (by decide) (by decide) (by decide)⟩

/-- Claim C5 (equality handling). For a range `low <= high` inside the buffer,
with pivot `arr[high]` and returned index `p`: after `partition` every cell in
`low..p-1` is strictly below the pivot and every cell in `p+1..high` is `>=` the
pivot; the cells `p+1..high` hold as many copies of the pivot value as the
original cells `low..high-1` did, so each of those ends above `p`. -/
theorem partition_equal_keys_upper (s : State) (low high : Int)
    (hlow : 0 ≤ low) (hle : low ≤ high) (hhigh : high < s.arr.length) :
    ∃ p s2, partition s low high = .ok (p, s2) ∧
      (∀ k : Int, low ≤ k → k ≤ p - 1 → cell s2.arr k < cell s.arr high) ∧
      (∀ k : Int, p + 1 ≤ k → k ≤ high → cell s.arr high ≤ cell s2.arr k) ∧
      (slice s2.arr (p + 1) high).count (cell s.arr high) =
        (slice s.arr low (high - 1)).count (cell s.arr high) := by
  obtain ⟨p, s2, e, hp1, hp2, hR, hpiv, hA, hB⟩ := partition_spec s low high hlow hle hhigh
  refine ⟨p, s2, e, fun k h1 h2 => hA k h1 (by omega), fun k h1 h2 => hB k (by omega) h2, ?_⟩
  have hlen : s2.arr.length = s.arr.length := hR.length_eq
  have hc := (hR.slice_perm hlow (by omega)).count_eq (cell s.arr high)
  have hz : (slice s2.arr low (p - 1)).count (cell s.arr high) = 0 :=
    count_slice_eq_zero s2.arr low (p - 1) _ hlow (by omega)
      fun k h1 h2 => ne_of_lt (hA k h1 (by omega))
  have he : slice s.arr (high + 1) high = [] := by
    unfold slice
    have : (high + 1 - (high + 1)).toNat = 0 := by omega
    rw [this]
    rfl
  rw [slice_split s2.arr low p high hlow hp1 hp2 (by omega),
    slice_split s.arr low high high hlow hle (le_refl _) hhigh, he, hpiv] at hc
  simp only [List.count_append, List.count_cons_self, List.count_nil] at hc
  omega

/-- Witness of claim C5: the hypotheses hold for the buffer `[4, 1, 4, 4]` and
the range `0..3`. -/
theorem partition_equal_keys_upper_witness :
    (0 : Int) ≤ 0 ∧ (0 : Int) ≤ 3 ∧ (3 : Int) < (State.mk [4, 1, 4, 4] []).arr.length ∧
      ∃ p s2, partition ⟨[4, 1, 4, 4], []⟩ 0 3 = .ok (p, s2) ∧
        (∀ k : Int, 0 ≤ k → k ≤ p - 1 → cell s2.arr k < cell [4, 1, 4, 4] 3) ∧
        (∀ k : Int, p + 1 ≤ k → k ≤ 3 → cell [4, 1, 4, 4] 3 ≤ cell s2.arr k) ∧
        (slice s2.arr (p + 1) 3).count (cell [4, 1, 4, 4] 3) =
          (slice [4, 1, 4, 4] 0 (3 - 1)).count (cell [4, 1, 4, 4] 3) :=
  ⟨by decide, by decide, by decide,
    partition_equal_keys_upper ⟨[4, 1, 4, 4], []⟩ 0 3 (by decide) (by decide) (by decide)⟩

/-- Claim C6 (disjointness). For a range `low <= high` inside the buffer the
index `p` returned by `partition` satisfies `low <= p <= high`; no index lies in
both `low..p-1` and `p+1..high`, and an index lies in one of them exactly when
it lies in `low..high` and differs from `p`. -/
theorem partition_index_splits_range (s : State) (low high : Int)
    (hlow : 0 ≤ low) (hle : low ≤ high) (hhigh : high < s.arr.length) :
    ∃ p s2, partition s low high = .ok (p, s2) ∧ low ≤ p ∧ p ≤ high ∧
      (∀ k : Int, ¬ ((low ≤ k ∧ k ≤ p - 1) ∧ (p + 1 ≤ k ∧ k ≤ high))) ∧
      (∀ k : Int, ((low ≤ k ∧ k ≤ p - 1) ∨ (p + 1 ≤ k ∧ k ≤ high)) ↔
        (low ≤ k ∧ k ≤ high ∧ k ≠ p)) := by
  obtain ⟨p, s2, e, hp1, hp2, _⟩ := partition_spec s low high hlow hle hhigh
  refine ⟨p, s2, e, hp1, hp2, fun k => by omega, fun k => ?_⟩
  constructor
  · intro h
    omega
  · intro h
    omega

/-- Witness of claim C6: the hypotheses hold for the buffer `[3, 1, 2]` and the
range `0..2`. -/
theorem partition_index_splits_range_witness :
    (0 : Int) ≤ 0 ∧ (0 : Int) ≤ 2 ∧ (2 : Int) < (State.mk [3, 1, 2] []).arr.length ∧
      ∃ p s2, partition ⟨[3, 1, 2], []⟩ 0 2 = .ok (p, s2) ∧ 0 ≤ p ∧ p ≤ 2 ∧
        (∀ k : Int, ¬ ((0 ≤ k ∧ k ≤ p - 1) ∧ (p + 1 ≤ k ∧ k ≤ 2))) ∧
        (∀ k : Int, ((0 ≤ k ∧ k ≤ p - 1) ∨ (p + 1 ≤ k ∧ k ≤ 2)) ↔
          (0 ≤ k ∧ k ≤ 2 ∧ k ≠ p)) :=
  ⟨by decide, by decide, by decide,
    partition_index_splits_range ⟨[3, 1, 2], []⟩ 0 2 (by decide) (by decide) (by decide)⟩

/-- Claim C7 (frame). For a range `0 <= low <= high < n`, both `partition` and
`sort_s` (with fuel for `high - low` nested levels) return a buffer of the same
length in which every cell outside `low..high` has the value it had before the
call, and every array write they log is at an index in `low..high`. -/
theorem partition_sort_s_frame (fuel : Nat) (s : State) (low high : Int)
    (hlow : 0 ≤ low) (hle : low ≤ high) (hhigh : high < s.arr.length)
    (hfuel : (high - low).toNat ≤ fuel) :
    (∃ p s2 evs, partition s low high = .ok (p, s2) ∧ s2.arr.length = s.arr.length ∧
      (∀ k : Int, k < low ∨ high < k → cell s2.arr k = cell s.arr k) ∧
      s2.log = s.log ++ evs ∧ (∀ k : Int, Event.write k ∈ evs → low ≤ k ∧ k ≤ high)) ∧
    (∃ s2 evs, sort_s fuel s low high = .ok s2 ∧ s2.arr.length = s.arr.length ∧
      (∀ k : Int, k < low ∨ high < k → cell s2.arr k = cell s.arr k) ∧
      s2.log = s.log ++ evs ∧ (∀ k : Int, Event.write k ∈ evs → low ≤ k ∧ k ≤ high)) := by
  constructor
  · obtain ⟨p, s2, e, _, _, hR, _⟩ := partition_spec s low high hlow hle hhigh
    obtain ⟨p', s2', evs, e', hlog, hacc⟩ := partition_log s low high hlow hle hhigh
    have hinj := Except.ok.inj (e.symm.trans e')
    have hs : s2 = s2' := congrArg Prod.snd hinj
    subst hs
    refine ⟨p, s2, Event.partition low high :: evs, e, hR.length_eq, hR.frame, hlog, ?_⟩
    intro k hk
    simp only [List.mem_cons, reduceCtorEq, false_or] at hk
    exact hacc k (Or.inr hk)
  · obtain ⟨s2, e, hR, _⟩ := sort_s_spec fuel s low high hlow hhigh hfuel
    obtain ⟨s2', evs, e', hlog, hacc⟩ := sort_s_log fuel s low high hlow hhigh hfuel
    have hs : s2 = s2' := Except.ok.inj (e.symm.trans e')
    subst hs
    exact ⟨s2, evs, e, hR.length_eq, hR.frame, hlog, fun k hk => hacc k (Or.inr hk)⟩

/-- Witness of claim C7: the hypotheses hold for the buffer `[9, 3, 1, 2, 0]`,
the range `1..3` and fuel 2. -/
theorem partition_sort_s_frame_witness :
    (0 : Int) ≤ 1 ∧ (1 : Int) ≤ 3 ∧ (3 : Int) < (State.mk [9, 3, 1, 2, 0] []).arr.length ∧
      ((3 : Int) - 1).toNat ≤ 2 ∧
      ∃ s2 evs, sort_s 2 ⟨[9, 3, 1, 2, 0], []⟩ 1 3 = .ok s2 ∧
        s2.arr.length = (State.mk [9, 3, 1, 2, 0] []).arr.length ∧
        (∀ k : Int, k < 1 ∨ 3 < k → cell s2.arr k = cell [9, 3, 1, 2, 0] k) ∧
        s2.log = [] ++ evs ∧ (∀ k : Int, Event.write k ∈ evs → 1 ≤ k ∧ k ≤ 3) :=
  ⟨by decide, by decide, by decide, by decide,
    (partition_sort_s_frame 2 ⟨[9, 3, 1, 2, 0], []⟩ 1 3 (by decide) (by decide) (by decide)
      (by decide)).2⟩

/-- Claim C8 (empty and singleton ranges). When `low >= high`, whatever the
buffer and the fuel, `sort_s` and `sort_p` return with the buffer unchanged; the
only event they log is their own call, so there is no `partition` call, no
recursive call and no array access, and `sort_p` leaves no task pending. -/
theorem empty_range_untouched (fuel : Nat) (s : State) (low high : Int) (h : high ≤ low) :
    sort_s fuel s low high = .ok ⟨s.arr, s.log ++ [.sort_s low high]⟩ ∧
      sort_p s low high = .ok (⟨s.arr, s.log ++ [.sort_p low high]⟩, []) := by
  constructor
  · exact sort_s_base fuel s low high h
  · unfold sort_p
    rw [if_neg (by omega)]
    rfl

/-- Witness of claim C8: the hypothesis holds for the crossed range `2..1` of
the buffer `[3, 1, 2]`, with no fuel at all. -/
theorem empty_range_untouched_witness :
    (1 : Int) ≤ 2 ∧
      sort_s 0 ⟨[3, 1, 2], []⟩ 2 1 = .ok ⟨[3, 1, 2], [] ++ [.sort_s 2 1]⟩ ∧
      sort_p ⟨[3, 1, 2], []⟩ 2 1 = .ok (⟨[3, 1, 2], [] ++ [.sort_p 2 1]⟩, []) :=
  ⟨by decide, empty_range_untouched 0 ⟨[3, 1, 2], []⟩ 2 1 (by decide)⟩

/-- Claim C9 (idempotence). On a range inside the buffer (in particular
`0..n-1`), with enough fuel: if the cells `low..high` are already non-descending
(duplicates allowed), `startQuickSortSequential` returns the buffer element-wise
unchanged; and sorting the output of a sort a second time returns that same
output. -/
theorem sorted_input_unchanged (fuel fuel2 : Nat) (s : State) (low high : Int)
    (hlow : 0 ≤ low) (hhigh : high < s.arr.length)
    (hfuel : (high - low).toNat ≤ fuel) (hfuel2 : (high - low).toNat ≤ fuel2) :
    ((∀ i : Int, low ≤ i → i < high → cell s.arr i ≤ cell s.arr (i + 1)) →
      ∃ s2, startQuickSortSequential fuel s low high = .ok s2 ∧ s2.arr = s.arr) ∧
    (∃ s2 s3, startQuickSortSequential fuel s low high = .ok s2 ∧
      startQuickSortSequential fuel2 s2 low high = .ok s3 ∧ s3.arr = s2.arr) := by
  obtain ⟨s2, e, hR, hS⟩ := sort_s_spec fuel s low high hlow hhigh hfuel
  have hlen : s2.arr.length = s.arr.length := hR.length_eq
  constructor
  · intro hsorted
    exact ⟨s2, e, rearranged_sorted_unique hR (Rearranged.refl _ _ _) hS hsorted hlow hhigh⟩
  · obtain ⟨s3, e3, hR3, hS3⟩ := sort_s_spec fuel2 s2 low high hlow (by omega) hfuel2
    exact ⟨s2, s3, e, e3,
      rearranged_sorted_unique hR3 (Rearranged.refl _ _ _) hS3 hS hlow (by omega)⟩

/-- Witness of claim C9: the hypotheses hold for the non-descending buffer
`[1, 2, 2]`, the range `0..2` and fuel 2. -/
theorem sorted_input_unchanged_witness :
    (0 : Int) ≤ 0 ∧ (2 : Int) < (State.mk [1, 2, 2] []).arr.length ∧
      ((2 : Int) - 0).toNat ≤ 2 ∧
      (∀ i : Int, 0 ≤ i → i < 2 → cell [1, 2, 2] i ≤ cell [1, 2, 2] (i + 1)) ∧
      ∃ s2, startQuickSortSequential 2 ⟨[1, 2, 2], []⟩ 0 2 = .ok s2 ∧ s2.arr = [1, 2, 2] :=
  have hs : ∀ i : Int, 0 ≤ i → i < 2 → cell [1, 2, 2] i ≤ cell [1, 2, 2] (i + 1) := by
    intro i h1 h2
    interval_cases i <;> decide
  ⟨by decide, by decide, by decide, hs,
    (sorted_input_unchanged 2 2 ⟨[1, 2, 2], []⟩ 0 2 (by decide) (by decide) (by decide)
      (by decide)).1 hs⟩

/-- Claim C10 (partition unit case). On `[3,6,2,8,1,9,4]` with `low = 0` and
`high = 6` (pivot 4), `partition` returns index 3 and the buffer
`[3,2,1,4,6,9,8]`; the log shows the Lomuto steps: the scan swaps cells (0,0),
(1,2) and (2,4), and the final swap is (3,6). Cells 0..2 hold `[3,2,1]`, all
`<= 4`, and cells 4..6 hold `[6,9,8]`, all `> 4`. -/
theorem partition_unit_case :
    partition ⟨[3, 6, 2, 8, 1, 9, 4], []⟩ 0 6 = .ok (3, ⟨[3, 2, 1, 4, 6, 9, 8],
      [.partition 0 6, .read 6,
        .read 0, .read 0, .read 0, .write 0, .write 0,
        .read 1,
        .read 2, .read 1, .read 2, .write 1, .write 2,
        .read 3,
        .read 4, .read 2, .read 4, .write 2, .write 4,
        .read 5,
        .read 3, .read 6, .write 3, .write 6]⟩) ∧
      slice [3, 2, 1, 4, 6, 9, 8] 0 2 = [3, 2, 1] ∧
      (∀ v ∈ slice [3, 2, 1, 4, 6, 9, 8] 0 2, v ≤ 4) ∧
      slice [3, 2, 1, 4, 6, 9, 8] 4 6 = [6, 9, 8] ∧
      (∀ v ∈ slice [3, 2, 1, 4, 6, 9, 8] 4 6, 4 < v) :=
  ⟨rfl, by decide, by decide, by decide, by decide⟩

/-- Claim C14 (sibling-order independence). For a range `low < high` inside the
buffer and `p` the index returned by `partition`: running `sort_s` on
`low..p-1` and then on `p+1..high` returns the same buffer as running them in
the other order. In either order the call on `low..p-1` reads and writes only
indices in `low..p-1` and the call on `p+1..high` only indices in
`p+1..high`, and no index lies in both. -/
theorem sibling_order_independent (fuel : Nat) (s : State) (low high : Int)
    (hlow : 0 ≤ low) (hlt : low < high) (hhigh : high < s.arr.length)
    (hfuel : (high - low).toNat ≤ fuel) :
    ∃ p s1 sL sLR sR sRL evL evLR evR evRL, partition s low high = .ok (p, s1) ∧
      sort_s fuel s1 low (p - 1) = .ok sL ∧ sort_s fuel sL (p + 1) high = .ok sLR ∧
      sort_s fuel s1 (p + 1) high = .ok sR ∧ sort_s fuel sR low (p - 1) = .ok sRL ∧
      sLR.arr = sRL.arr ∧
      sL.log = s1.log ++ evL ∧ AccessesIn low (p - 1) evL ∧
      sLR.log = sL.log ++ evLR ∧ AccessesIn (p + 1) high evLR ∧
      sR.log = s1.log ++ evR ∧ AccessesIn (p + 1) high evR ∧
      sRL.log = sR.log ++ evRL ∧ AccessesIn low (p - 1) evRL ∧
      (∀ k : Int, ¬ ((low ≤ k ∧ k ≤ p - 1) ∧ (p + 1 ≤ k ∧ k ≤ high))) := by
  obtain ⟨p, s1, e1, hp1, hp2, hR1, hpiv, hA, hB⟩ :=
    partition_spec s low high hlow (by omega) hhigh
  have len1 : s1.arr.length = s.arr.length := hR1.length_eq
  obtain ⟨sL, sLR, eL, eLR, hRa, hSa⟩ := children_left_right fuel s1 low p high _ hlow hp1 hp2
    (by omega) (by omega) hpiv (fun k h1 h2 => hA k h1 (by omega))
    (fun k h1 h2 => hB k (by omega) h2)
  obtain ⟨sR, sRL, eR, eRL, hRb, hSb⟩ := children_right_left fuel s1 low p high _ hlow hp1 hp2
    (by omega) (by omega) hpiv (fun k h1 h2 => hA k h1 (by omega))
    (fun k h1 h2 => hB k (by omega) h2)
  obtain ⟨sL', evL, eL', hlL, haL⟩ := sort_s_log fuel s1 low (p - 1) hlow (by omega) (by omega)
  have h1 : sL = sL' := Except.ok.inj (eL.symm.trans eL')
  subst h1
  obtain ⟨sR', evR, eR', hlR, haR⟩ :=
    sort_s_log fuel s1 (p + 1) high (by omega) (by omega) (by omega)
  have h2 : sR = sR' := Except.ok.inj (eR.symm.trans eR')
  subst h2
  have lenL : sL.arr.length = s1.arr.length := by
    obtain ⟨t, et, hRt, _⟩ := sort_s_spec fuel s1 low (p - 1) hlow (by omega) (by omega)
    have : sL = t := Except.ok.inj (eL.symm.trans et)
    subst this
    exact hRt.length_eq
  have lenR : sR.arr.length = s1.arr.length := by
    obtain ⟨t, et, hRt, _⟩ := sort_s_spec fuel s1 (p + 1) high (by omega) (by omega) (by omega)
    have : sR = t := Except.ok.inj (eR.symm.trans et)
    subst this
    exact hRt.length_eq
  obtain ⟨sLR', evLR, eLR', hlLR, haLR⟩ :=
    sort_s_log fuel sL (p + 1) high (by omega) (by omega) (by omega)
  have h3 : sLR = sLR' := Except.ok.inj (eLR.symm.trans eLR')
  subst h3
  obtain ⟨sRL', evRL, eRL', hlRL, haRL⟩ :=
    sort_s_log fuel sR low (p - 1) hlow (by omega) (by omega)
  have h4 : sRL = sRL' := Except.ok.inj (eRL.symm.trans eRL')
  subst h4
  exact ⟨p, s1, sL, sLR, sR, sRL, evL, evLR, evR, evRL, e1, eL, eLR, eR, eRL,
    rearranged_sorted_unique hRa hRb hSa hSb hlow (by omega),
    hlL, haL, hlLR, haLR, hlR, haR, hlRL, haRL, fun k => by omega⟩

/-- Witness of claim C14: the hypotheses hold for the buffer `[2, 1, 4, 3]`,
the range `0..3` and fuel 3. -/
theorem sibling_order_independent_witness :
    (0 : Int) ≤ 0 ∧ (0 : Int) < 3 ∧ (3 : Int) < (State.mk [2, 1, 4, 3] []).arr.length ∧
      ((3 : Int) - 0).toNat ≤ 3 ∧
      ∃ p s1 sL sLR sR sRL evL evLR evR evRL,
        partition ⟨[2, 1, 4, 3], []⟩ 0 3 = .ok (p, s1) ∧
        sort_s 3 s1 0 (p - 1) = .ok sL ∧ sort_s 3 sL (p + 1) 3 = .ok sLR ∧
        sort_s 3 s1 (p + 1) 3 = .ok sR ∧ sort_s 3 sR 0 (p - 1) = .ok sRL ∧
        sLR.arr = sRL.arr ∧
        sL.log = s1.log ++ evL ∧ AccessesIn 0 (p - 1) evL ∧
        sLR.log = sL.log ++ evLR ∧ AccessesIn (p + 1) 3 evLR ∧
        sR.log = s1.log ++ evR ∧ AccessesIn (p + 1) 3 evR ∧
        sRL.log = sR.log ++ evRL ∧ AccessesIn 0 (p - 1) evRL ∧
        (∀ k : Int, ¬ ((0 ≤ k ∧ k ≤ p - 1) ∧ (p + 1 ≤ k ∧ k ≤ 3))) :=
  ⟨by decide, by decide, by decide, by decide,
    sibling_order_independent 3 ⟨[2, 1, 4, 3], []⟩ 0 3 (by decide) (by decide) (by decide)
      (by decide)⟩

/-! ## Ranges that leave the buffer -/

/-- With `high` outside the buffer, `partition` stops at its first statement,
the read of `arr[high]`. -/
theorem partition_high_outside (s : State) (low high : Int)
    (h : high < 0 ∨ (s.arr.length : Int) ≤ high) :
    partition s low high = .error (.outOfBounds high (s.log ++ [.partition low high])) := by
  have hn : ¬ (0 ≤ high ∧ high < (s.arr.length : Int)) := by omega
  simp [partition, load, State.emit, hn]

/-- With `high` inside the buffer and `low` negative, `partition` reads
`arr[high]` and stops at the first read of the scan, `arr[low]`. -/
theorem partition_low_outside (s : State) (low high : Int) (hlt : low < high)
    (h0 : 0 ≤ high) (h1 : high < s.arr.length) (hl : low < 0) :
    partition s low high =
      .error (.outOfBounds low (s.log ++ [.partition low high, .read high])) := by
  have hn : ¬ (0 ≤ low ∧ low < (s.arr.length : Int)) := by omega
  unfold partition
  rw [load_ok _ high h0 (by simpa [State.emit] using h1)]
  simp only []
  unfold partition_loop
  rw [if_pos (by omega)]
  simp [load, State.emit, hn]

theorem sort_s_step (fuel : Nat) (s : State) (low high : Int) (hlt : low < high) :
    sort_s (fuel + 1) s low high =
      match partition (s.emit (.sort_s low high)) low high with
      | .error e => .error e
      | .ok (pi, s) =>
        match sort_s fuel s low (pi - 1) with
        | .error e => .error e
        | .ok s => sort_s fuel s (pi + 1) high := by
  rw [sort_s.eq_def, if_pos hlt]

theorem sortedOn_whole {a : List Int} (hs : SortedOn a 0 ((a.length : Int) - 1)) :
    a.Sorted (· ≤ ·) := by
  have h := hs.sorted_slice (le_refl _) (by omega)
  have e : slice a 0 ((a.length : Int) - 1) = a := by
    have e3 : ((a.length : Int) - 1 + 1 - 0).toNat = a.length := by omega
    unfold slice
    rw [e3]
    simp
  rw [e] at h
  exact h

theorem reverseSorted_length (n : Nat) : (reverseSorted n).length = n := by
  simp [reverseSorted]

/-- A `partition` call on `low < high` that returns was given a range inside
the buffer, and its result is an index of that range. -/
theorem partition_ok_index (t : State) (low high p : Int) (s1 : State) (hlt : low < high)
    (e : partition t low high = .ok (p, s1)) :
    0 ≤ low ∧ high < t.arr.length ∧ low ≤ p ∧ p ≤ high := by
  by_cases hh : high < 0 ∨ (t.arr.length : Int) ≤ high
  · rw [partition_high_outside t low high hh] at e
    cases e
  · by_cases hl : low < 0
    · rw [partition_low_outside t low high hlt (by omega) (by omega) hl] at e
      cases e
    · obtain ⟨p2, s2, e2, h1, h2, _⟩ :=
        partition_spec t low high (by omega) (by omega) (by omega)
      have hinj := Except.ok.inj (e.symm.trans e2)
      have hp : p = p2 := congrArg Prod.fst hinj
      subst hp
      exact ⟨by omega, by omega, h1, h2⟩

/-- The sorts on a range inside the buffer, with the whole-buffer reading used
for the stress input. -/
theorem reverseSorted_sorts (fuel : Nat) (n : Nat) (hfuel : n - 1 ≤ fuel) :
    (∃ s2, startQuickSortSequential fuel ⟨reverseSorted n, []⟩ 0 ((n : Int) - 1) = .ok s2 ∧
      s2.arr.Sorted (· ≤ ·) ∧ s2.arr.Perm (reverseSorted n)) ∧
    (∀ sched : Schedule,
      ∃ s2, startQuickSortParallel fuel sched ⟨reverseSorted n, []⟩ 0 ((n : Int) - 1) = .ok s2 ∧
        s2.arr.Sorted (· ≤ ·) ∧ s2.arr.Perm (reverseSorted n)) := by
  have hlen := reverseSorted_length n
  constructor
  · obtain ⟨s2, e, hR, hS⟩ := sort_s_spec fuel ⟨reverseSorted n, []⟩ 0 ((n : Int) - 1)
      (le_refl _) (by simp only [hlen]; omega) (by omega)
    have hl2 : s2.arr.length = n := hR.length_eq.trans hlen
    refine ⟨s2, e, sortedOn_whole ?_, hR.perm⟩
    rw [hl2]
    exact hS
  · intro sched
    obtain ⟨s2, e, hR, hS⟩ := startQuickSortParallel_spec fuel sched ⟨reverseSorted n, []⟩ 0
      ((n : Int) - 1) (le_refl _) (by simp only [hlen]; omega) (by omega)
    have hl2 : s2.arr.length = n := hR.length_eq.trans hlen
    refine ⟨s2, e, sortedOn_whole ?_, hR.perm⟩
    rw [hl2]
    exact hS

/-- Claim C11 (termination under worst-case pivots). With fuel for `high - low`
nested levels `sort_s` never runs out of fuel, whatever the buffer and the
range; it returns when the range is empty, a singleton or inside the buffer.
Each `partition` call on `low < high` that returns gives an index `p` in
`low..high`, so both `low..p-1` and `p+1..high` have fewer indices than
`low..high`. On the reverse-sorted input `10000, 9999, ..., 1` over `0..9999`
both the sequential and the parallel driver return a non-descending
permutation of the input. -/
theorem sort_s_terminates (fuel : Nat) (s : State) (low high : Int)
    (hfuel : (high - low).toNat ≤ fuel) :
    sort_s fuel s low high ≠ .error .outOfFuel ∧
    ((high ≤ low ∨ (0 ≤ low ∧ high < (s.arr.length : Int))) →
      ∃ s2, sort_s fuel s low high = .ok s2) ∧
    (∀ (t : State) (p : Int) (s1 : State), low < high → partition t low high = .ok (p, s1) →
      low ≤ p ∧ p ≤ high ∧ (p - 1) - low + 1 < high - low + 1 ∧
        high - (p + 1) + 1 < high - low + 1) ∧
    (∃ s2, startQuickSortSequential 9999 ⟨reverseSorted 10000, []⟩ 0 9999 = .ok s2 ∧
      s2.arr.Sorted (· ≤ ·) ∧ s2.arr.Perm (reverseSorted 10000)) ∧
    (∀ sched : Schedule,
      ∃ s2, startQuickSortParallel 9999 sched ⟨reverseSorted 10000, []⟩ 0 9999 = .ok s2 ∧
        s2.arr.Sorted (· ≤ ·) ∧ s2.arr.Perm (reverseSorted 10000)) := by
  have hok : (high ≤ low ∨ (0 ≤ low ∧ high < (s.arr.length : Int))) →
      ∃ s2, sort_s fuel s low high = .ok s2 := by
    rintro (h | ⟨h1, h2⟩)
    · exact ⟨_, sort_s_base fuel s low high h⟩
    · obtain ⟨s2, e, _⟩ := sort_s_spec fuel s low high h1 h2 hfuel
      exact ⟨s2, e⟩
  refine ⟨?_, hok, ?_, (reverseSorted_sorts 9999 10000 (by decide)).1,
    (reverseSorted_sorts 9999 10000 (by decide)).2⟩
  · by_cases hv : high ≤ low ∨ (0 ≤ low ∧ high < (s.arr.length : Int))
    · obtain ⟨s2, e⟩ := hok hv
      rw [e]
      exact fun h => by cases h
    · have hlt : low < high := by omega
      obtain ⟨f, hf⟩ : ∃ f, fuel = f + 1 := ⟨fuel - 1, by omega⟩
      subst hf
      rw [sort_s_step f s low high hlt]
      by_cases hh : high < 0 ∨ (s.arr.length : Int) ≤ high
      · rw [partition_high_outside _ low high (by simpa [State.emit] using hh)]
        exact fun h => by cases h
      · rw [partition_low_outside _ low high hlt (by omega)
          (by simp only [State.emit]; omega) (by omega)]
        exact fun h => by cases h
  · intro t p s1 hlt e
    obtain ⟨_, _, h1, h2⟩ := partition_ok_index t low high p s1 hlt e
    exact ⟨h1, h2, by omega, by omega⟩

/-- Witness of claim C11: the hypothesis holds for the buffer `[3, 2, 1]`, the
range `0..2` and fuel 2. -/
theorem sort_s_terminates_witness :
    ((2 : Int) - 0).toNat ≤ 2 ∧ sort_s 2 ⟨[3, 2, 1], []⟩ 0 2 ≠ .error .outOfFuel :=
  ⟨by decide, (sort_s_terminates 2 ⟨[3, 2, 1], []⟩ 0 2 (by decide)).1⟩

/-- Claim C12, as stated, fails on the buffer `[3, 1, 2]` with `low = -1`,
`high = 2`: neither entry point rejects the call. Both enter `partition`, which
reads `arr[2]` and then accesses `arr[-1]`, outside the buffer, where the model
stops (undefined behaviour in C); the log at that point shows the `partition`
call and the array read. -/
theorem invalid_range_reaches_partition :
    startQuickSortSequential 1 ⟨[3, 1, 2], []⟩ (-1) 2 =
      .error (.outOfBounds (-1) [.sort_s (-1) 2, .partition (-1) 2, .read 2]) ∧
    startQuickSortParallel 1 .submission ⟨[3, 1, 2], []⟩ (-1) 2 =
      .error (.outOfBounds (-1) [.sort_p (-1) 2, .partition (-1) 2, .read 2]) :=
  ⟨rfl, rfl⟩

/-- Claim C12, amended. For `low < high` with `low < 0` or `high >= n` the entry
points make no range check: they call `partition(arr, low, high)` at once. When
`high` is outside the buffer, the first array access, the read of `arr[high]`,
is out of bounds; otherwise `arr[high]` is read and the next access, the read of
`arr[low]`, is out of bounds. No result is returned and no array write is made
before that access. -/
theorem invalid_range_not_checked (fuel : Nat) (sched : Schedule) (s : State) (low high : Int)
    (hlt : low < high) (hbad : low < 0 ∨ (s.arr.length : Int) ≤ high) :
    ((high < 0 ∨ (s.arr.length : Int) ≤ high) →
      startQuickSortSequential (fuel + 1) s low high =
        .error (.outOfBounds high (s.log ++ [.sort_s low high, .partition low high])) ∧
      startQuickSortParallel fuel sched s low high =
        .error (.outOfBounds high (s.log ++ [.sort_p low high, .partition low high]))) ∧
    ((0 ≤ high ∧ high < (s.arr.length : Int)) →
      startQuickSortSequential (fuel + 1) s low high =
        .error (.outOfBounds low
          (s.log ++ [.sort_s low high, .partition low high, .read high])) ∧
      startQuickSortParallel fuel sched s low high =
        .error (.outOfBounds low
          (s.log ++ [.sort_p low high, .partition low high, .read high]))) := by
  constructor
  · intro hh
    constructor
    · unfold startQuickSortSequential
      rw [sort_s_step fuel s low high hlt,
        partition_high_outside _ low high (by simpa [State.emit] using hh)]
      simp [State.emit]
    · unfold startQuickSortParallel sort_p
      rw [if_pos hlt, partition_high_outside _ low high (by simpa [State.emit] using hh)]
      simp [State.emit]
  · intro hh
    constructor
    · unfold startQuickSortSequential
      rw [sort_s_step fuel s low high hlt, partition_low_outside _ low high hlt hh.1
        (by simp only [State.emit]; omega) (by omega)]
      simp [State.emit]
    · unfold startQuickSortParallel sort_p
      rw [if_pos hlt, partition_low_outside _ low high hlt hh.1
        (by simp only [State.emit]; omega) (by omega)]
      simp [State.emit]

/-- Witness of claim C12 as amended: the hypotheses hold for the buffer
`[3, 1, 2]` and the range `0..5`, whose upper index is outside the buffer. -/
theorem invalid_range_not_checked_witness :
    (0 : Int) < 5 ∧ ((0 : Int) < 0 ∨ ((State.mk [3, 1, 2] []).arr.length : Int) ≤ 5) ∧
      startQuickSortSequential (0 + 1) ⟨[3, 1, 2], []⟩ 0 5 =
        .error (.outOfBounds 5 ([] ++ [.sort_s 0 5, .partition 0 5])) ∧
      startQuickSortParallel 0 .reversed ⟨[3, 1, 2], []⟩ 0 5 =
        .error (.outOfBounds 5 ([] ++ [.sort_p 0 5, .partition 0 5])) :=
  ⟨by decide, by decide,
    (invalid_range_not_checked 0 .reversed ⟨[3, 1, 2], []⟩ 0 5 (by decide) (by decide)).1
      (by decide)⟩

/-! ## The log: which events a run appends -/

theorem AccessOnly.join {low high : Int} {e1 e2 : List Event}
    (h1 : AccessOnly low high e1) (h2 : AccessOnly low high e2) :
    AccessOnly low high (e1 ++ e2) := by
  intro e he
  rcases List.mem_append.mp he with h | h
  · exact h1 e h
  · exact h2 e h

theorem AccessOnly.enlarge {low high low2 high2 : Int} {evs : List Event}
    (h : AccessOnly low high evs) (hl : low2 ≤ low) (hh : high ≤ high2) :
    AccessOnly low2 high2 evs := by
  intro e he
  obtain ⟨k, hk, h1, h2⟩ := h e he
  exact ⟨k, hk, by omega, by omega⟩

theorem accessOnly_swap (low high x y : Int) (hx1 : low ≤ x) (hx2 : x ≤ high)
    (hy1 : low ≤ y) (hy2 : y ≤ high) :
    AccessOnly low high [.read x, .read y, .write x, .write y] := by
  intro e he
  simp only [List.mem_cons, List.mem_singleton, List.not_mem_nil, or_false] at he
  rcases he with h | h | h | h
  · exact ⟨x, Or.inl h, hx1, hx2⟩
  · exact ⟨y, Or.inl h, hy1, hy2⟩
  · exact ⟨x, Or.inr h, hx1, hx2⟩
  · exact ⟨y, Or.inr h, hy1, hy2⟩

theorem accessOnly_read (low high x : Int) (hx1 : low ≤ x) (hx2 : x ≤ high) :
    AccessOnly low high [.read x] := by
  intro e he
  simp only [List.mem_singleton] at he
  exact ⟨x, Or.inl he, hx1, hx2⟩

theorem AccessOnly.eventIn {low high : Int} {evs : List Event} (h : AccessOnly low high evs) :
    ∀ e ∈ evs, EventIn low high e := by
  intro e he
  obtain ⟨k, hk, h1, h2⟩ := h e he
  rcases hk with hk | hk <;> subst hk <;> exact ⟨h1, h2⟩

theorem EventIn.widen {low high low2 high2 : Int} {e : Event} (h : EventIn low high e)
    (hl : low2 ≤ low) (hh : high ≤ high2) : EventIn low2 high2 e := by
  cases e <;> simp only [EventIn] at h ⊢ <;> omega

/-- Events of the scan loop: array accesses in `low..high-1` only. -/
theorem partition_loop_events (pivot low high : Int) (s : State)
    (hlow : 0 ≤ low) (hle : low ≤ high) (hhigh : high < s.arr.length) :
    ∃ i2 s2 evs, partition_loop ((high - low).toNat + 1) pivot high (low - 1) low s
        = .ok (i2, s2) ∧ s2.log = s.log ++ evs ∧ AccessOnly low (high - 1) evs := by
  have key := partition_loop_inv pivot low high s.arr.length
    (fun _ _ t => ∃ evs, t.log = s.log ++ evs ∧ AccessOnly low (high - 1) evs) hlow hhigh ?_ ?_
    ((high - low).toNat + 1) (low - 1) low s rfl (le_refl _) (by omega) hle (by omega)
    ⟨[], by simp, fun e he => by simp at he⟩
  · obtain ⟨i2, s2, e, _, _, _, evs, h1, h2⟩ := key
    exact ⟨i2, s2, evs, e, h1, h2⟩
  · rintro i j t ⟨evs, h1, h2⟩ _ hi hij hj _
    refine ⟨evs ++ ([.read j] ++ [.read (i + 1), .read j, .write (i + 1), .write j]), ?_, ?_⟩
    · show (t.log ++ [.read j]) ++ _ = _
      rw [h1]
      simp
    · exact h2.join ((accessOnly_read _ _ j (by omega) (by omega)).join
        (accessOnly_swap _ _ (i + 1) j (by omega) (by omega) (by omega) (by omega)))
  · rintro i j t ⟨evs, h1, h2⟩ _ hi hij hj _
    refine ⟨evs ++ [.read j], ?_, ?_⟩
    · show t.log ++ [.read j] = _
      rw [h1]
      simp
    · exact h2.join (accessOnly_read _ _ j (by omega) (by omega))

/-- Events of `partition`: the call event, then array accesses in `low..high`
only. -/
theorem partition_events (s : State) (low high : Int)
    (hlow : 0 ≤ low) (hle : low ≤ high) (hhigh : high < s.arr.length) :
    ∃ p s2 evs, partition s low high = .ok (p, s2) ∧
      s2.log = s.log ++ Event.partition low high :: evs ∧ AccessOnly low high evs := by
  obtain ⟨i2, s2, e, h1, h2, hR, _, _⟩ := partition_loop_spec (cell s.arr high) low high
    ((s.emit (.partition low high)).emit (.read high)) hlow hle (by simpa [State.emit] using hhigh)
  obtain ⟨i3, s3, evs, e3, hlog, hacc⟩ := partition_loop_events (cell s.arr high) low high
    ((s.emit (.partition low high)).emit (.read high)) hlow hle (by simpa [State.emit] using hhigh)
  have hinj := Except.ok.inj (e.symm.trans e3)
  have hi : i2 = i3 := congrArg Prod.fst hinj
  have hs : s2 = s3 := congrArg Prod.snd hinj
  subst hi hs
  have hlen : s2.arr.length = s.arr.length := hR.length_eq
  unfold partition
  rw [load_ok _ high (by omega) (by simpa [State.emit] using hhigh)]
  simp only [State.emit] at e hlog ⊢
  rw [e]
  simp only []
  rw [swap_ok s2 (i2 + 1) high (by omega) (by omega) (by omega) (by omega)]
  refine ⟨i2 + 1, _, [.read high] ++ evs ++
    [.read (i2 + 1), .read high, .write (i2 + 1), .write high], rfl, ?_, ?_⟩
  · show s2.log ++ _ = _
    rw [hlog]
    simp
  · exact ((accessOnly_read _ _ high (by omega) (by omega)).join
      (hacc.enlarge (le_refl _) (by omega))).join
      (accessOnly_swap _ _ (i2 + 1) high (by omega) (by omega) (by omega) (by omega))

/-- Events of `sort_s`: its own call event, then only array accesses in
`low..high`, `partition` calls on ranges `l < h` inside `low..high` and nested
`sort_s` calls inside `low..high`. -/
theorem sort_s_events : ∀ (fuel : Nat) (s : State) (low high : Int),
    0 ≤ low → high < s.arr.length → (high - low).toNat ≤ fuel →
    ∃ s2 evs, sort_s fuel s low high = .ok s2 ∧
      s2.log = s.log ++ Event.sort_s low high :: evs ∧ ∀ e ∈ evs, EventIn low high e := by
  intro fuel
  induction fuel with
  | zero =>
    intro s low high _ _ hf
    have h : high ≤ low := by omega
    exact ⟨_, [], sort_s_base 0 s low high h, rfl, fun e he => by simp at he⟩
  | succ fuel ih =>
    intro s low high hlow hhigh hf
    by_cases h : high ≤ low
    · exact ⟨_, [], sort_s_base _ s low high h, rfl, fun e he => by simp at he⟩
    · obtain ⟨p, s1, e1, hp1, hp2, hR1, _, _, _⟩ :=
        partition_spec (s.emit (.sort_s low high)) low high hlow (by omega) hhigh
      obtain ⟨p', s1', evs1, e1', hl1, ha1⟩ :=
        partition_events (s.emit (.sort_s low high)) low high hlow (by omega) hhigh
      have hinj := Except.ok.inj (e1.symm.trans e1')
      have hp : p = p' := congrArg Prod.fst hinj
      have hs : s1 = s1' := congrArg Prod.snd hinj
      subst hp hs
      have len1 : s1.arr.length = s.arr.length := hR1.length_eq
      obtain ⟨s2, e2, hR2, _⟩ := sort_s_spec fuel s1 low (p - 1) hlow (by omega) (by omega)
      obtain ⟨s2', evs2, e2', hl2, ha2⟩ := ih s1 low (p - 1) hlow (by omega) (by omega)
      have hs : s2 = s2' := Except.ok.inj (e2.symm.trans e2')
      subst hs
      have len2 : s2.arr.length = s1.arr.length := hR2.length_eq
      obtain ⟨s3, evs3, e3, hl3, ha3⟩ := ih s2 (p + 1) high (by omega) (by omega) (by omega)
      refine ⟨s3, (Event.partition low high :: evs1) ++ (Event.sort_s low (p - 1) :: evs2) ++
        (Event.sort_s (p + 1) high :: evs3), ?_, ?_, ?_⟩
      · rw [sort_s_step fuel s low high (by omega), e1]
        simp only []
        rw [e2]
        simp only []
        exact e3
      · rw [hl3, hl2, hl1]
        simp [State.emit]
      · intro e he
        simp only [List.mem_append, List.mem_cons] at he
        rcases he with (((h | h) | (h | h)) | (h | h))
        · subst h
          exact ⟨le_refl _, by omega, le_refl _⟩
        · exact ha1.eventIn e h
        · subst h
          exact ⟨le_refl _, by omega⟩
        · exact (ha2 e h).widen (le_refl _) (by omega)
        · subst h
          exact ⟨by omega, le_refl _⟩
        · exact (ha3 e h).widen (by omega) (le_refl _)

/-- Two pending tasks on ranges inside the buffer run to completion one after
the other; each appends its own `sort_s` call event and events of its range. -/
theorem two_tasks_events (fuel : Nat) (t : State) (l1 h1 l2 h2 : Int)
    (a1 : 0 ≤ l1) (a2 : h1 < t.arr.length) (a3 : (h1 - l1).toNat ≤ fuel)
    (b1 : 0 ≤ l2) (b2 : h2 < t.arr.length) (b3 : (h2 - l2).toNat ≤ fuel) :
    ∃ sA sB evsA evsB, sort_s fuel t l1 h1 = .ok sA ∧ sort_s fuel sA l2 h2 = .ok sB ∧
      runTasks fuel t [⟨l1, h1⟩, ⟨l2, h2⟩] = .ok sB ∧
      sB.log = t.log ++ (Event.sort_s l1 h1 :: evsA) ++ (Event.sort_s l2 h2 :: evsB) ∧
      (∀ e ∈ evsA, EventIn l1 h1 e) ∧ (∀ e ∈ evsB, EventIn l2 h2 e) := by
  obtain ⟨sA, eA, hRA, _⟩ := sort_s_spec fuel t l1 h1 a1 a2 a3
  obtain ⟨sA', evsA, eA', hlA, haA⟩ := sort_s_events fuel t l1 h1 a1 a2 a3
  have h : sA = sA' := Except.ok.inj (eA.symm.trans eA')
  subst h
  have lenA : sA.arr.length = t.arr.length := hRA.length_eq
  obtain ⟨sB, evsB, eB, hlB, haB⟩ := sort_s_events fuel sA l2 h2 b1 (by omega) b3
  refine ⟨sA, sB, evsA, evsB, eA, eB, ?_, ?_, haA, haB⟩
  · simp only [runTasks]
    rw [eA]
    simp only []
    rw [eB]
  · rw [hlB, hlA]

/-- Run of `startQuickSortParallel` on a range `low < high` inside the buffer:
`sort_p` partitions, logs the two submissions and returns with both tasks
pending; the driver then runs the tasks `tA`, `tB` in the scheduled order. -/
theorem parallel_events (fuel : Nat) (sched : Schedule) (s : State) (low high : Int)
    (hlow : 0 ≤ low) (hlt : low < high) (hhigh : high < s.arr.length)
    (hfuel : (high - low).toNat ≤ fuel) :
    ∃ (p : Int) (s1 s2 : State) (evs1 evsA evsB : List Event) (tA tB : Task),
      low ≤ p ∧ p ≤ high ∧
      sort_p s low high = .ok (s1, [⟨low, p - 1⟩, ⟨p + 1, high⟩]) ∧
      s1.log = s.log ++ Event.sort_p low high :: Event.partition low high ::
        (evs1 ++ [.task low (p - 1), .task (p + 1) high]) ∧
      AccessOnly low high evs1 ∧
      sched.arrange [⟨low, p - 1⟩, ⟨p + 1, high⟩] = [tA, tB] ∧
      runTasks fuel s1 [tA, tB] = .ok s2 ∧
      startQuickSortParallel fuel sched s low high = .ok s2 ∧
      s2.log = s1.log ++ (Event.sort_s tA.low tA.high :: evsA) ++
        (Event.sort_s tB.low tB.high :: evsB) ∧
      (∀ e ∈ evsA, EventIn low high e) ∧ (∀ e ∈ evsB, EventIn low high e) := by
  obtain ⟨p, s1, e1, hp1, hp2, hR1, _, _, _⟩ :=
    partition_spec (s.emit (.sort_p low high)) low high hlow (by omega) hhigh
  obtain ⟨p', s1', evs1, e1', hl1, ha1⟩ :=
    partition_events (s.emit (.sort_p low high)) low high hlow (by omega) hhigh
  have hinj := Except.ok.inj (e1.symm.trans e1')
  have hp : p = p' := congrArg Prod.fst hinj
  have hs : s1 = s1' := congrArg Prod.snd hinj
  subst hp hs
  have len1 : s1.arr.length = s.arr.length := hR1.length_eq
  have esp : sort_p s low high = .ok ((s1.emit (.task low (p - 1))).emit (.task (p + 1) high),
      [⟨low, p - 1⟩, ⟨p + 1, high⟩]) := by
    unfold sort_p
    rw [if_pos hlt, e1]
  have hlog : ((s1.emit (.task low (p - 1))).emit (.task (p + 1) high)).log =
      s.log ++ Event.sort_p low high :: Event.partition low high ::
        (evs1 ++ [.task low (p - 1), .task (p + 1) high]) := by
    simp only [State.emit] at hl1 ⊢
    rw [hl1]
    simp
  have hlen : ((s1.emit (.task low (p - 1))).emit (.task (p + 1) high)).arr.length =
      s.arr.length := len1
  cases sched with
  | submission =>
    obtain ⟨sA, sB, evsA, evsB, _, _, eRun, hlB, haA, haB⟩ := two_tasks_events fuel
      ((s1.emit (.task low (p - 1))).emit (.task (p + 1) high)) low (p - 1) (p + 1) high
      hlow (by omega) (by omega) (by omega) (by omega) (by omega)
    refine ⟨p, _, sB, evs1, evsA, evsB, ⟨low, p - 1⟩, ⟨p + 1, high⟩, hp1, hp2, esp, hlog, ha1,
      rfl, eRun, ?_, hlB, fun e he => (haA e he).widen (le_refl _) (by omega),
      fun e he => (haB e he).widen (by omega) (le_refl _)⟩
    unfold startQuickSortParallel
    rw [esp]
    exact eRun
  | reversed =>
    obtain ⟨sA, sB, evsA, evsB, _, _, eRun, hlB, haA, haB⟩ := two_tasks_events fuel
      ((s1.emit (.task low (p - 1))).emit (.task (p + 1) high)) (p + 1) high low (p - 1)
      (by omega) (by omega) (by omega) hlow (by omega) (by omega)
    refine ⟨p, _, sB, evs1, evsA, evsB, ⟨p + 1, high⟩, ⟨low, p - 1⟩, hp1, hp2, esp, hlog, ha1,
      rfl, eRun, ?_, hlB, fun e he => (haA e he).widen (by omega) (le_refl _),
      fun e he => (haB e he).widen (le_refl _) (by omega)⟩
    unfold startQuickSortParallel
    rw [esp]
    exact eRun

theorem countP_isTask_eventIn {low high : Int} {evs : List Event}
    (h : ∀ e ∈ evs, EventIn low high e) : evs.countP Event.isTask = 0 := by
  rw [List.countP_eq_zero]
  intro e he
  have := h e he
  cases e <;> simp_all [EventIn, Event.isTask]

theorem countP_isSortP_eventIn {low high : Int} {evs : List Event}
    (h : ∀ e ∈ evs, EventIn low high e) : evs.countP Event.isSortP = 0 := by
  rw [List.countP_eq_zero]
  intro e he
  have := h e he
  cases e <;> simp_all [EventIn, Event.isSortP]

/-- Claim C15, as stated, fails on the buffer `[1, 2, 3]` with `low = 0`,
`high = 2`: the run makes two `partition` calls (on `0..2` and, inside the first
task, on `0..1`) but submits two tasks, not four; the tasks run `sort_s`, and the
only `sort_p` call is the first one. -/
theorem parallel_tasks_not_twice_partitions :
    ∃ s2, startQuickSortParallel 2 .submission ⟨[1, 2, 3], []⟩ 0 2 = .ok s2 ∧
      s2.arr = [1, 2, 3] ∧ s2.log.countP Event.isTask = 2 ∧
      s2.log.countP Event.isPartition = 2 ∧ s2.log.countP Event.isSortP = 1 ∧
      ¬ (s2.log.countP Event.isTask = 2 * s2.log.countP Event.isPartition) :=
  ⟨_, rfl, rfl, by decide, by decide, by decide, by decide⟩

/-- Claim C15, amended. For a range `low < high` inside the buffer, `sort_p`
submits exactly two tasks, for `low..p-1` and `p+1..high`; each task runs the
sequential `sort_s` on its sub-range and submits no task. The whole run logs
two task submissions and one `sort_p` call, whatever the number of `partition`
calls (at least one). -/
theorem parallel_submits_two_tasks (fuel : Nat) (sched : Schedule) (s : State) (low high : Int)
    (hlow : 0 ≤ low) (hlt : low < high) (hhigh : high < s.arr.length)
    (hfuel : (high - low).toNat ≤ fuel) :
    ∃ p s1 s2 evs, sort_p s low high = .ok (s1, [⟨low, p - 1⟩, ⟨p + 1, high⟩]) ∧
      startQuickSortParallel fuel sched s low high = .ok s2 ∧ s2.log = s.log ++ evs ∧
      evs.countP Event.isTask = 2 ∧ evs.countP Event.isSortP = 1 ∧
      1 ≤ evs.countP Event.isPartition ∧
      Event.sort_s low (p - 1) ∈ evs ∧ Event.sort_s (p + 1) high ∈ evs := by
  obtain ⟨p, s1, s2, evs1, evsA, evsB, tA, tB, _, _, esp, hl1, ha1, harr, _, erun, hl2, haA, haB⟩ :=
    parallel_events fuel sched s low high hlow hlt hhigh hfuel
  have c1 := countP_isTask_eventIn ha1.eventIn
  have c2 := countP_isTask_eventIn haA
  have c3 := countP_isTask_eventIn haB
  have d1 := countP_isSortP_eventIn ha1.eventIn
  have d2 := countP_isSortP_eventIn haA
  have d3 := countP_isSortP_eventIn haB
  refine ⟨p, s1, s2, Event.sort_p low high :: Event.partition low high ::
      (evs1 ++ [.task low (p - 1), .task (p + 1) high]) ++
      (Event.sort_s tA.low tA.high :: evsA) ++ (Event.sort_s tB.low tB.high :: evsB),
    esp, erun, ?_, ?_, ?_, ?_, ?_, ?_⟩
  · rw [hl2, hl1]
    simp
  · simp [List.countP_cons, List.countP_append, Event.isTask, c1, c2, c3]
  · simp [List.countP_cons, List.countP_append, Event.isSortP, d1, d2, d3]
  · simp [List.countP_cons, List.countP_append, Event.isPartition]
  · cases sched <;> simp only [Schedule.arrange, List.reverse_cons, List.reverse_nil,
      List.nil_append, List.singleton_append, List.cons.injEq, and_true] at harr <;>
      obtain ⟨hA, hB⟩ := harr <;> subst hA hB <;> simp
  · cases sched <;> simp only [Schedule.arrange, List.reverse_cons, List.reverse_nil,
      List.nil_append, List.singleton_append, List.cons.injEq, and_true] at harr <;>
      obtain ⟨hA, hB⟩ := harr <;> subst hA hB <;> simp

/-- Witness of claim C15 as amended: the hypotheses hold for the buffer
`[1, 2, 3]`, the range `0..2`, fuel 2 and the submission order. -/
theorem parallel_submits_two_tasks_witness :
    (0 : Int) ≤ 0 ∧ (0 : Int) < 2 ∧ (2 : Int) < (State.mk [1, 2, 3] []).arr.length ∧
      ((2 : Int) - 0).toNat ≤ 2 ∧
      ∃ p s1 s2 evs, sort_p ⟨[1, 2, 3], []⟩ 0 2 = .ok (s1, [⟨0, p - 1⟩, ⟨p + 1, 2⟩]) ∧
        startQuickSortParallel 2 .submission ⟨[1, 2, 3], []⟩ 0 2 = .ok s2 ∧
        s2.log = [] ++ evs ∧
        evs.countP Event.isTask = 2 ∧ evs.countP Event.isSortP = 1 ∧
        1 ≤ evs.countP Event.isPartition ∧
        Event.sort_s 0 (p - 1) ∈ evs ∧ Event.sort_s (p + 1) 2 ∈ evs :=
  ⟨by decide, by decide, by decide, by decide,
    parallel_submits_two_tasks 2 .submission ⟨[1, 2, 3], []⟩ 0 2 (by decide) (by decide)
      (by decide) (by decide)⟩

/-- Claim C16, as stated, fails on the buffer `[2, 1, 3]` with `low = 0`,
`high = 2`: `sort_p` has no wait after its two submissions, so it returns with
both tasks still pending; no `sort_s` event is in the log yet and the buffer
`[2, 1, 3]` is not sorted at that point. -/
theorem sort_p_returns_with_tasks_pending :
    sort_p ⟨[2, 1, 3], []⟩ 0 2 = .ok (⟨[2, 1, 3],
      [.sort_p 0 2, .partition 0 2, .read 2,
        .read 0, .read 0, .read 0, .write 0, .write 0,
        .read 1, .read 1, .read 1, .write 1, .write 1,
        .read 2, .read 2, .write 2, .write 2,
        .task 0 1, .task 3 2]⟩, [⟨0, 1⟩, ⟨3, 2⟩]) ∧
    ¬ (cell [2, 1, 3] 0 ≤ cell [2, 1, 3] 1) :=
  ⟨rfl, by decide⟩

/-- Claim C16, amended. For a range `low < high` inside the buffer, `sort_p`
itself returns right after submitting its two tasks, leaving both pending; the
top-level `startQuickSortParallel` returns only after both pending tasks have
run to completion (the end of its parallel region), and the range is
non-descending when control returns to the caller. -/
theorem parallel_joins_at_region_end (fuel : Nat) (sched : Schedule) (s : State)
    (low high : Int) (hlow : 0 ≤ low) (hlt : low < high) (hhigh : high < s.arr.length)
    (hfuel : (high - low).toNat ≤ fuel) :
    ∃ (p : Int) (s1 s2 : State) (evs1 : List Event) (tA tB : Task),
      sort_p s low high = .ok (s1, [⟨low, p - 1⟩, ⟨p + 1, high⟩]) ∧
      s1.log = s.log ++ Event.sort_p low high :: Event.partition low high ::
        (evs1 ++ [.task low (p - 1), .task (p + 1) high]) ∧
      AccessOnly low high evs1 ∧
      sched.arrange [⟨low, p - 1⟩, ⟨p + 1, high⟩] = [tA, tB] ∧
      runTasks fuel s1 [tA, tB] = .ok s2 ∧
      startQuickSortParallel fuel sched s low high = .ok s2 ∧
      (∀ i : Int, low ≤ i → i < high → cell s2.arr i ≤ cell s2.arr (i + 1)) := by
  obtain ⟨p, s1, s2, evs1, evsA, evsB, tA, tB, _, _, esp, hl1, ha1, harr, etasks, erun, _⟩ :=
    parallel_events fuel sched s low high hlow hlt hhigh hfuel
  obtain ⟨s2', e2, _, hS⟩ :=
    startQuickSortParallel_spec fuel sched s low high hlow hhigh hfuel
  have h : s2 = s2' := Except.ok.inj (erun.symm.trans e2)
  subst h
  exact ⟨p, s1, s2, evs1, tA, tB, esp, hl1, ha1, harr, etasks, erun, hS⟩

/-- Witness of claim C16 as amended: the hypotheses hold for the buffer
`[2, 1, 3]`, the range `0..2`, fuel 2 and the reversed task order. -/
theorem parallel_joins_at_region_end_witness :
    (0 : Int) ≤ 0 ∧ (0 : Int) < 2 ∧ (2 : Int) < (State.mk [2, 1, 3] []).arr.length ∧
      ((2 : Int) - 0).toNat ≤ 2 ∧
      ∃ (p : Int) (s1 s2 : State) (evs1 : List Event) (tA tB : Task),
        sort_p ⟨[2, 1, 3], []⟩ 0 2 = .ok (s1, [⟨0, p - 1⟩, ⟨p + 1, 2⟩]) ∧
        s1.log = [] ++ Event.sort_p 0 2 :: Event.partition 0 2 ::
          (evs1 ++ [.task 0 (p - 1), .task (p + 1) 2]) ∧
        AccessOnly 0 2 evs1 ∧
        Schedule.reversed.arrange [⟨0, p - 1⟩, ⟨p + 1, 2⟩] = [tA, tB] ∧
        runTasks 2 s1 [tA, tB] = .ok s2 ∧
        startQuickSortParallel 2 .reversed ⟨[2, 1, 3], []⟩ 0 2 = .ok s2 ∧
        (∀ i : Int, 0 ≤ i → i < 2 → cell s2.arr i ≤ cell s2.arr (i + 1)) :=
  ⟨by decide, by decide, by decide, by decide,
    parallel_joins_at_region_end 2 .reversed ⟨[2, 1, 3], []⟩ 0 2 (by decide) (by decide)
      (by decide) (by decide)⟩

/-- Claim C17 (index safety). For a range `0 <= low <= high < n`: `partition`
returns, and every array read and write it logs is at an index in `low..high`;
`sort_s` (with fuel for `high - low` nested levels) returns, every `partition`
call it logs is on a range `l..h` with `low <= l < h <= high`, and every array
read and write it logs is at an index in `low..high`, hence inside the buffer.
The call on the empty left sub-range `low..low-1` (upper index `-1` when
`low = 0`) returns at once without touching the buffer. -/
theorem sort_s_index_safety (fuel : Nat) (s : State) (low high : Int)
    (hlow : 0 ≤ low) (hle : low ≤ high) (hhigh : high < s.arr.length)
    (hfuel : (high - low).toNat ≤ fuel) :
    (∃ p s2 evs, partition s low high = .ok (p, s2) ∧
      s2.log = s.log ++ Event.partition low high :: evs ∧
      (∀ k : Int, Event.read k ∈ evs ∨ Event.write k ∈ evs → low ≤ k ∧ k ≤ high)) ∧
    (∃ s2 evs, sort_s fuel s low high = .ok s2 ∧
      s2.log = s.log ++ Event.sort_s low high :: evs ∧
      (∀ l h : Int, Event.partition l h ∈ evs → low ≤ l ∧ l < h ∧ h ≤ high) ∧
      (∀ k : Int, Event.read k ∈ evs ∨ Event.write k ∈ evs →
        (low ≤ k ∧ k ≤ high) ∧ (0 ≤ k ∧ k < (s.arr.length : Int)))) ∧
    sort_s fuel s low (low - 1) = .ok ⟨s.arr, s.log ++ [.sort_s low (low - 1)]⟩ := by
  refine ⟨?_, ?_, sort_s_base fuel s low (low - 1) (by omega)⟩
  · obtain ⟨p, s2, evs, e, hlog, hacc⟩ := partition_events s low high hlow hle hhigh
    refine ⟨p, s2, evs, e, hlog, ?_⟩
    rintro k (hk | hk)
    · exact hacc.eventIn _ hk
    · exact hacc.eventIn _ hk
  · obtain ⟨s2, evs, e, hlog, hev⟩ := sort_s_events fuel s low high hlow hhigh hfuel
    refine ⟨s2, evs, e, hlog, fun l h hm => hev _ hm, ?_⟩
    rintro k (hk | hk)
    · have h : low ≤ k ∧ k ≤ high := hev _ hk
      exact ⟨h, by omega, by omega⟩
    · have h : low ≤ k ∧ k ≤ high := hev _ hk
      exact ⟨h, by omega, by omega⟩

/-- Witness of claim C17: the hypotheses hold for the buffer `[2, 3, 1]`, the
range `0..2` and fuel 2; there the first pivot index is `low`. -/
theorem sort_s_index_safety_witness :
    (0 : Int) ≤ 0 ∧ (0 : Int) ≤ 2 ∧ (2 : Int) < (State.mk [2, 3, 1] []).arr.length ∧
      ((2 : Int) - 0).toNat ≤ 2 ∧
      ∃ s2 evs, sort_s 2 ⟨[2, 3, 1], []⟩ 0 2 = .ok s2 ∧
        s2.log = [] ++ Event.sort_s 0 2 :: evs ∧
        (∀ l h : Int, Event.partition l h ∈ evs → 0 ≤ l ∧ l < h ∧ h ≤ 2) ∧
        (∀ k : Int, Event.read k ∈ evs ∨ Event.write k ∈ evs →
          (0 ≤ k ∧ k ≤ 2) ∧ (0 ≤ k ∧ k < ((State.mk [2, 3, 1] []).arr.length : Int))) :=
  ⟨by decide, by decide, by decide, by decide,
    (sort_s_index_safety 2 ⟨[2, 3, 1], []⟩ 0 2 (by decide) (by decide) (by decide)
      (by decide)).2.1⟩

/-! ## The lower block keeps the order of the scan -/

theorem slice_congr {a b : List Int} (l h : Int) (hl : 0 ≤ l) (hh : h < a.length)
    (hlen : b.length = a.length) (hc : ∀ k : Int, l ≤ k → k ≤ h → cell b k = cell a k) :
    slice b l h = slice a l h := by
  have la := length_slice a l h hl hh
  have lb := length_slice b l h hl (by omega)
  apply List.ext_getElem (by omega)
  intro i h1 h2
  rw [getElem_slice b l h i hl h1 (by omega), getElem_slice a l h i hl h2 hh]
  exact hc _ (by omega) (by omega)

theorem slice_empty (a : List Int) (l h : Int) (hlt : h < l) : slice a l h = [] := by
  have e : (h + 1 - l).toNat = 0 := by omega
  unfold slice
  rw [e]
  rfl

theorem slice_snoc (a : List Int) (l j : Int) (hl : 0 ≤ l) (hlj : l ≤ j) (hj : j < a.length) :
    slice a l j = slice a l (j - 1) ++ [cell a j] := by
  rw [slice_split a l j j hl hlj (le_refl _) hj, slice_empty a (j + 1) j (by omega)]

/-- What the scan loop does to the lower block: cells `low..i` hold, in scan
order, the entry values of `low..j-1` that are below the pivot; cells from `j`
on still hold their entry values. -/
theorem partition_loop_stable (pivot low high : Int) (s : State)
    (hlow : 0 ≤ low) (hle : low ≤ high) (hhigh : high < s.arr.length) :
    ∃ i2 s2, partition_loop ((high - low).toNat + 1) pivot high (low - 1) low s = .ok (i2, s2) ∧
      low - 1 ≤ i2 ∧ i2 < high ∧ s2.arr.length = s.arr.length ∧
      slice s2.arr low i2 = (slice s.arr low (high - 1)).filter (fun v => decide (v < pivot)) := by
  have key := partition_loop_inv pivot low high s.arr.length
    (fun i j t => slice t.arr low i =
        (slice s.arr low (j - 1)).filter (fun v => decide (v < pivot)) ∧
      (∀ k : Int, j ≤ k → cell t.arr k = cell s.arr k)) hlow hhigh ?_ ?_
    ((high - low).toNat + 1) (low - 1) low s rfl (le_refl _) (by omega) hle (by omega)
    ⟨by rw [slice_empty _ _ _ (by omega)]; rfl, fun k _ => rfl⟩
  · obtain ⟨i2, s2, e, h1, h2, h3, h4, _⟩ := key
    exact ⟨i2, s2, e, h1, h2, h3, h4⟩
  · rintro i j t ⟨hS, hF⟩ hn hi hij hj hv
    have b1 : (0 : Int) ≤ i + 1 := by omega
    have b2 : i + 1 < t.arr.length := by omega
    have b3 : (0 : Int) ≤ j := by omega
    have b4 : j < t.arr.length := by omega
    have hcj : cell t.arr j = cell s.arr j := hF j (le_refl _)
    have lsw : (swapCells t.arr (i + 1) j).length = t.arr.length := length_swapCells _ _ _
    constructor
    · show slice (swapCells t.arr (i + 1) j) low (i + 1) = _
      have e1 : j + 1 - 1 = j := by omega
      rw [e1, slice_snoc _ low (i + 1) hlow (by omega) (by omega),
        slice_snoc s.arr low j hlow (by omega) (by omega), List.filter_append]
      have e2 : i + 1 - 1 = i := by omega
      rw [e2]
      have e3 : slice (swapCells t.arr (i + 1) j) low i = slice t.arr low i := by
        apply slice_congr low i hlow (by omega) lsw
        intro k hk1 hk2
        rw [cell_swapCells t.arr (i + 1) j k b1 b2 b3 b4, if_neg (by omega), if_neg (by omega)]
      have e4 : cell (swapCells t.arr (i + 1) j) (i + 1) = cell s.arr j := by
        rw [cell_swapCells t.arr (i + 1) j (i + 1) b1 b2 b3 b4]
        by_cases e : i + 1 = j
        · rw [if_pos e, e]
          exact hcj
        · rw [if_neg e, if_pos rfl]
          exact hcj
      have hv2 : cell s.arr j < pivot := by rw [← hcj]; exact hv
      rw [e3, e4, hS]
      simp [List.filter_cons, hv2]
    · intro k hk
      show cell (swapCells t.arr (i + 1) j) k = cell s.arr k
      rw [cell_swapCells t.arr (i + 1) j k b1 b2 b3 b4, if_neg (by omega), if_neg (by omega)]
      exact hF k (by omega)
  · rintro i j t ⟨hS, hF⟩ hn hi hij hj hv
    have hcj : cell t.arr j = cell s.arr j := hF j (le_refl _)
    have hv2 : ¬ cell s.arr j < pivot := by rw [← hcj]; exact hv
    constructor
    · show slice t.arr low i = _
      have e1 : j + 1 - 1 = j := by omega
      rw [e1, slice_snoc s.arr low j hlow (by omega) (by omega), List.filter_append, hS]
      simp [List.filter_cons, hv2]
    · intro k hk
      exact hF k (by omega)

/-- The lower block after `partition`: the cells `low..p-1` are the entry values
of `low..high-1` that are below the pivot, in their original order, and `p` is
`low` plus their number. -/
theorem partition_stable (s : State) (low high : Int)
    (hlow : 0 ≤ low) (hle : low ≤ high) (hhigh : high < s.arr.length) :
    ∃ p s2, partition s low high = .ok (p, s2) ∧
      slice s2.arr low (p - 1) =
        (slice s.arr low (high - 1)).filter (fun v => decide (v < cell s.arr high)) ∧
      p = low + ((slice s.arr low (high - 1)).countP (fun v => decide (v < cell s.arr high)) :
        Nat) := by
  obtain ⟨i2, s2, e, h1, h2, hlen, hS⟩ := partition_loop_stable (cell s.arr high) low high
    ((s.emit (.partition low high)).emit (.read high)) hlow hle (by simpa [State.emit] using hhigh)
  have hlen : s2.arr.length = s.arr.length := hlen
  have hS : slice s2.arr low i2 =
      (slice s.arr low (high - 1)).filter (fun v => decide (v < cell s.arr high)) := hS
  have b1 : (0 : Int) ≤ i2 + 1 := by omega
  have b2 : i2 + 1 < s2.arr.length := by omega
  have b3 : (0 : Int) ≤ high := by omega
  have b4 : high < s2.arr.length := by omega
  have e3 : slice (swapCells s2.arr (i2 + 1) high) low i2 = slice s2.arr low i2 := by
    apply slice_congr low i2 hlow (by omega) (length_swapCells _ _ _)
    intro k hk1 hk2
    rw [cell_swapCells s2.arr (i2 + 1) high k b1 b2 b3 b4, if_neg (by omega), if_neg (by omega)]
  have hcount : ((slice s2.arr low i2).length : Int) = i2 + 1 - low := by
    rw [length_slice s2.arr low i2 hlow (by omega)]
    omega
  refine ⟨i2 + 1, ⟨swapCells s2.arr (i2 + 1) high,
    s2.log ++ [.read (i2 + 1), .read high, .write (i2 + 1), .write high]⟩, ?_, ?_, ?_⟩
  · unfold partition
    rw [load_ok _ high (by omega) (by simpa [State.emit] using hhigh)]
    simp only [State.emit] at e ⊢
    rw [e]
    simp only []
    rw [swap_ok s2 (i2 + 1) high b1 b2 b3 b4]
  · have e2 : i2 + 1 - 1 = i2 := by omega
    show slice (swapCells s2.arr (i2 + 1) high) low (i2 + 1 - 1) = _
    rw [e2, e3, hS]
  · rw [List.countP_eq_length_filter, ← hS]
    omega

/-- Claim C18 (the returned index is a count). For a range `low <= high` inside
the buffer, `partition` returns `low + k`, where `k` is the number of cells in
`low..high-1` whose original value is strictly below the original `arr[high]`. -/
theorem partition_index_is_count (s : State) (low high : Int)
    (hlow : 0 ≤ low) (hle : low ≤ high) (hhigh : high < s.arr.length) :
    ∃ p s2, partition s low high = .ok (p, s2) ∧
      p = low + ((slice s.arr low (high - 1)).countP (fun v => decide (v < cell s.arr high)) :
        Nat) := by
  obtain ⟨p, s2, e, _, hp⟩ := partition_stable s low high hlow hle hhigh
  exact ⟨p, s2, e, hp⟩

/-- Witness of claim C18: the hypotheses hold for the buffer
`[3, 6, 2, 8, 1, 9, 4]` and the range `0..6`. -/
theorem partition_index_is_count_witness :
    (0 : Int) ≤ 0 ∧ (0 : Int) ≤ 6 ∧
      (6 : Int) < (State.mk [3, 6, 2, 8, 1, 9, 4] []).arr.length ∧
      ∃ p s2, partition ⟨[3, 6, 2, 8, 1, 9, 4], []⟩ 0 6 = .ok (p, s2) ∧
        p = 0 + ((slice [3, 6, 2, 8, 1, 9, 4] 0 (6 - 1)).countP
          (fun v => decide (v < cell [3, 6, 2, 8, 1, 9, 4] 6)) : Nat) :=
  ⟨by decide, by decide, by decide,
    partition_index_is_count ⟨[3, 6, 2, 8, 1, 9, 4], []⟩ 0 6 (by decide) (by decide)
      (by decide)⟩

/-- Claim C19 (order preservation in the lower block). For a range
`low <= high` inside the buffer, after `partition` returns `p` the cells
`low..p-1` are exactly the original values of `low..high-1` that are strictly
below the pivot, in their original relative order. -/
theorem partition_lower_block_stable (s : State) (low high : Int)
    (hlow : 0 ≤ low) (hle : low ≤ high) (hhigh : high < s.arr.length) :
    ∃ p s2, partition s low high = .ok (p, s2) ∧
      slice s2.arr low (p - 1) =
        (slice s.arr low (high - 1)).filter (fun v => decide (v < cell s.arr high)) := by
  obtain ⟨p, s2, e, hS, _⟩ := partition_stable s low high hlow hle hhigh
  exact ⟨p, s2, e, hS⟩

/-- Witness of claim C19: the hypotheses hold for the buffer
`[3, 6, 2, 8, 1, 9, 4]` and the range `0..6`. -/
theorem partition_lower_block_stable_witness :
    (0 : Int) ≤ 0 ∧ (0 : Int) ≤ 6 ∧
      (6 : Int) < (State.mk [3, 6, 2, 8, 1, 9, 4] []).arr.length ∧
      ∃ p s2, partition ⟨[3, 6, 2, 8, 1, 9, 4], []⟩ 0 6 = .ok (p, s2) ∧
        slice s2.arr 0 (p - 1) = (slice [3, 6, 2, 8, 1, 9, 4] 0 (6 - 1)).filter
          (fun v => decide (v < cell [3, 6, 2, 8, 1, 9, 4] 6)) :=
  ⟨by decide, by decide, by decide,
    partition_lower_block_stable ⟨[3, 6, 2, 8, 1, 9, 4], []⟩ 0 6 (by decide) (by decide)
      (by decide)⟩

end Quicksort

namespace Summation

/-! ## The two sums -/

theorem segSum_add (numbers : Int → Int) (m : Nat) :
    ∀ (i : Int) (k : Nat), segSum numbers i (k + m) = segSum numbers i k + segSum numbers (i + k) m := by
  intro i k
  induction k generalizing i with
  | zero => simp [segSum]
  | succ k ih =>
    have e : k + 1 + m = (k + m) + 1 := by omega
    rw [e]
    simp only [segSum]
    rw [ih (i + 1)]
    have e2 : i + 1 + (k : Int) = i + ((k + 1 : Nat) : Int) := by push_cast; ring
    rw [e2]
    ring

theorem add_loop_eq (numbers : Int → Int) :
    ∀ (fuel : Nat) (i stop sum : Int), (stop - i).toNat < fuel →
      add_loop numbers fuel i stop sum = some (sum + segSum numbers i (stop - i).toNat) := by
  intro fuel
  induction fuel with
  | zero => intro i stop sum h; omega
  | succ fuel ih =>
    intro i stop sum h
    unfold add_loop
    by_cases hi : i < stop
    · rw [if_pos hi, ih (i + 1) stop (sum + numbers i) (by omega)]
      have e : (stop - i).toNat = (stop - (i + 1)).toNat + 1 := by omega
      rw [e]
      simp only [segSum]
      rw [add_assoc]
    · rw [if_neg hi]
      have e : (stop - i).toNat = 0 := by omega
      rw [e]
      simp [segSum]

theorem add_serial_eq (numbers : Int → Int) :
    add_serial numbers = some (segSum numbers 0 Num_To_Add.toNat) := by
  unfold add_serial
  rw [add_loop_eq numbers _ 0 Num_To_Add 0 (by omega)]
  simp

theorem thread_sum_eq (numbers : Int → Int) (n : Int) (hn : 0 ≤ n) (t : Nat) :
    thread_sum numbers n t = some (segSum numbers ((t * n.toNat : Nat) : Int) n.toNat) := by
  unfold thread_sum
  rw [add_loop_eq numbers _ _ _ 0 (by omega)]
  have e1 : (((t : Int) + 1) * n - (t : Int) * n).toNat = n.toNat := by
    have : ((t : Int) + 1) * n - (t : Int) * n = n := by ring
    rw [this]
  have e2 : (t : Int) * n = ((t * n.toNat : Nat) : Int) := by
    push_cast
    rw [Int.toNat_of_nonneg hn]
  rw [e1, e2]
  simp

theorem reduce_threads_eq (numbers : Int → Int) (n : Int) (hn : 0 ≤ n) (t : Nat) :
    reduce_threads numbers n t = some (segSum numbers 0 (t * n.toNat)) := by
  induction t with
  | zero => simp [reduce_threads, segSum]
  | succ t ih =>
    unfold reduce_threads
    rw [ih, thread_sum_eq numbers n hn t]
    simp only []
    have e : (t + 1) * n.toNat = t * n.toNat + n.toNat := by ring
    rw [e, segSum_add numbers n.toNat 0 (t * n.toNat)]
    simp

/-- What `add_parallel` returns with `numThreads` threads: the sum of the first
`numThreads * (Num_To_Add / numThreads)` elements. -/
theorem add_parallel_eq (numThreads : Nat) (numbers : Int → Int) :
    add_parallel numThreads numbers =
      some (segSum numbers 0 (numThreads * (Num_To_Add / (numThreads : Int)).toNat)) := by
  unfold add_parallel
  exact reduce_threads_eq numbers _ (Int.ediv_nonneg (by decide) (by omega)) numThreads

theorem segSum_ones (i : Int) (len : Nat) : segSum (fun _ => 1) i len = len := by
  induction len generalizing i with
  | zero => simp [segSum]
  | succ len ih =>
    simp only [segSum]
    rw [ih]
    push_cast
    ring

/-- Claim C13 fails on the code: with 3 threads and the array of `Num_To_Add`
ones, each thread sums a chunk of `333333333` elements, so `add_parallel`
returns `999999999`, the sum of the elements `0 .. 999999998`; the last element
is never added, and `add_serial` returns `1000000000`. -/
theorem add_parallel_drops_remainder :
    add_parallel 3 (fun _ => 1) = some 999999999 ∧
      add_serial (fun _ => 1) = some 1000000000 ∧
      add_parallel 3 (fun _ => 1) ≠ add_serial (fun _ => 1) := by
  have hp : add_parallel 3 (fun _ => 1) = some 999999999 := by
    rw [add_parallel_eq, segSum_ones]
    rfl
  have hs : add_serial (fun _ => 1) = some 1000000000 := by
    rw [add_serial_eq, segSum_ones]
    rfl
  refine ⟨hp, hs, ?_⟩
  rw [hp, hs]
  decide

/-- When the number of threads divides `Num_To_Add` the chunks cover the whole
array and the two sums agree. -/
theorem add_parallel_eq_serial_of_dvd (numThreads : Nat) (numbers : Int → Int)
    (hd : (numThreads : Int) ∣ Num_To_Add) :
    add_parallel numThreads numbers = add_serial numbers := by
  rw [add_parallel_eq, add_serial_eq]
  have h0 : (0 : Int) ≤ Num_To_Add / (numThreads : Int) :=
    Int.ediv_nonneg (by decide) (by omega)
  have e : (numThreads * (Num_To_Add / (numThreads : Int)).toNat : Nat) = Num_To_Add.toNat := by
    have h1 : ((numThreads * (Num_To_Add / (numThreads : Int)).toNat : Nat) : Int) = Num_To_Add := by
      push_cast
      rw [Int.toNat_of_nonneg h0]
      exact Int.mul_ediv_cancel' hd
    omega
  rw [e]

end Summation
